import Mathlib

/-!
Verification of the covid analytics pipeline (Rust) against its
natural-language specification.

The development shallowly embeds the parts of the source the claims are
about:

* src/src/timeseries.rs — the dense keyed series store and its algebra
  (cumsum, diff, shift_fwd, unrolled, rekeyed, synthesize, add,
  checked_add_signed, find_ge);
* src/src/bin/rki_diff.rs — the publication-diff builder
  (saturating_add_u64_i32, checked_add_u64_i64, prepare_diff,
  apply_diff, submit, and the load/writeback stream wrapping);
* src/src/lib.rs and src/src/rki.rs — the Sex and AgeGroup codecs;
* src/src/influxdb/readout.rs — the line-protocol escaping.

Machine integers are modelled as Nat / Int.  u64 cells live in
[0, 2^64); wrapping additions carry an explicit mod, checked
operations return Option (none = the Rust panic / checked failure),
saturating operations clamp exactly as the source does.  HashMaps are
modelled as association lists (key, index); Vec<Vec<u64>> as
List (List Nat); NaiveDate as Int (days; 0 = the engine start in the
concrete scenarios).
-/

namespace Covid

/-- 2^64, the modulus of Rust u64 arithmetic. -/
def U64 : Nat := 2 ^ 64

/-- 2^63, the bound used by i64::try_from(u64) (try_into in unrolled). -/
def I64MAX : Nat := 2 ^ 63

/-! ## The dense series store, from src/src/timeseries.rs

struct TimeSeries<T, V> { start: NaiveDate, keys: HashMap<T, usize>,
time_series: Vec<Vec<V>>, len: usize }.  The HashMap becomes an
association list of (key, index) pairs; iteration order over it is the
list order. -/

structure TimeSeries (K : Type) (V : Type) where
  start : Int
  keys : List (K × Nat)
  time_series : List (List V)
  len : Nat
deriving DecidableEq

variable {K : Type} [DecidableEq K]

/-- self.keys.get(&k): first binding of k in the association list. -/
def TimeSeries.lookupKey (s : TimeSeries K V) (k : K) : Option Nat :=
  (s.keys.find? (fun p => decide (p.1 = k))).map (fun p => p.2)

/-- date_index: (other - self.start).num_days(), None when outside [0, len). -/
def TimeSeries.date_index (s : TimeSeries K V) (other : Int) : Option Nat :=
  let days : Int := other - s.start
  if days < 0 ∨ s.len ≤ days.toNat then none else some days.toNat

/-- get_index_or_create: return the existing index, or push a zero-filled
vector of length len and record the new key. -/
def TimeSeries.get_index_or_create (z : V) (s : TimeSeries K V) (k : K) :
    TimeSeries K V × Nat :=
  match s.lookupKey k with
  | some v => (s, v)
  | none =>
      let v := s.time_series.length
      ({ s with
          time_series := s.time_series ++ [List.replicate s.len z],
          keys := s.keys ++ [(k, v)] }, v)

/-- get: the key's whole slot vector (None when the key is absent). -/
def TimeSeries.get (s : TimeSeries K V) (k : K) : Option (List V) :=
  (s.lookupKey k).bind (fun i => s.time_series[i]?)

/-- get_value: bounds-checked single-slot read. -/
def TimeSeries.get_value (s : TimeSeries K V) (k : K) (i : Nat) : Option V :=
  if s.len ≤ i then none else (s.get k).bind (fun v => v[i]?)

/-- find_ge: smallest index ≥ start_at whose slot meets or exceeds value
(u64 store). -/
def TimeSeries.find_ge (s : TimeSeries K Nat) (k : K) (start_at value : Nat) :
    Option Nat :=
  (s.get k).bind (fun vec =>
    (List.range' start_at (vec.length - start_at)).find?
      (fun i => decide (value ≤ vec.getD i 0)))

/-! ### shift_fwd (timeseries.rs lines 335-345)

if offset >= len every vector is filled with zeroes first; then every
vector is rotate_right(offset)ed and its first offset slots zeroed.
slice::rotate_right(mid) panics when mid exceeds the slice length, and
the zero-fill of vec[..offset] panics likewise, hence the Option. -/

/-- Rust slice rotate_right(w): the last w elements move to the front.
Only defined (in Rust: only panic-free) for w ≤ length. -/
def rotateRight (w : Nat) (v : List α) : List α :=
  v.drop (v.length - w) ++ v.take (v.length - w)

/-- One vector of shift_fwd: rotate_right(offset) then vec[..offset].fill(0);
none models the panic when offset > vec.len(). -/
def shiftVec (w : Nat) (v : List Nat) : Option (List Nat) :=
  if w ≤ v.length then some (List.replicate w 0 ++ (rotateRight w v).drop w)
  else none

/-- Map an Option-valued vector transform over all stored vectors,
failing (= panicking) as soon as one vector fails. -/
def optMapVecs (f : List α → Option (List β)) :
    List (List α) → Option (List (List β))
  | [] => some []
  | v :: r =>
      match f v, optMapVecs f r with
      | some v', some r' => some (v' :: r')
      | _, _ => none

/-- shift_fwd on the whole store. -/
def TimeSeries.shift_fwd (w : Nat) (s : TimeSeries K Nat) :
    Option (TimeSeries K Nat) :=
  (optMapVecs (shiftVec w)
    (if s.len ≤ w then
      s.time_series.map (fun v => List.replicate v.length 0)
    else s.time_series)).map (fun ts => { s with time_series := ts })

/-! ### cumsum (timeseries.rs lines 186-194)

accum: u64 runs over each vector; u64 += wraps in release builds, hence
the explicit mod 2^64. -/

/-- The accumulator loop of cumsum over one vector. -/
def cumsumGo (accum : Nat) : List Nat → List Nat
  | [] => []
  | v :: rest =>
      let a := (accum + v) % U64
      a :: cumsumGo a rest

/-- cumsum of one vector. -/
def cumsumVec (v : List Nat) : List Nat := cumsumGo 0 v

/-- cumsum on the whole store. -/
def TimeSeries.cumsum (s : TimeSeries K Nat) : TimeSeries K Nat :=
  { s with time_series := s.time_series.map cumsumVec }

/-! ### diff (timeseries.rs lines 196-213)

for i in offset..len: vec[i-offset] = vec[i].checked_sub(vec[i-offset])
(panic on None), then rotate_right(offset) and zero the first offset
slots. -/

/-- u64 checked_sub. -/
def checked_sub (a b : Nat) : Option Nat :=
  if b ≤ a then some (a - b) else none

/-- The in-place subtraction loop of diff: iteration counter i starts at
offset; fuel is the number of remaining iterations (len - offset). -/
def diffLoop (offset : Nat) (vec : List Nat) (i fuel : Nat) :
    Option (List Nat) :=
  match fuel with
  | 0 => some vec
  | fuel' + 1 =>
      match checked_sub (vec.getD i 0) (vec.getD (i - offset) 0) with
      | some v => diffLoop offset (vec.set (i - offset) v) (i + 1) fuel'
      | none => none

/-- diff of one vector: the loop, then rotate_right(offset) (panics when
offset > len) and zero-fill of the first offset slots. -/
def diffVec (offset : Nat) (vec : List Nat) : Option (List Nat) := do
  let out ← diffLoop offset vec offset (vec.length - offset)
  if offset ≤ out.length then
    some (List.replicate offset 0 ++ (rotateRight offset out).drop offset)
  else none

/-- diff on the whole store. -/
def TimeSeries.diff (offset : Nat) (s : TimeSeries K Nat) :
    Option (TimeSeries K Nat) :=
  (optMapVecs (diffVec offset) s.time_series).map
    (fun ts => { s with time_series := ts })

/-! ### unrolled (timeseries.rs lines 290-333)

dst starts as a clone of src; for each i the recurrence
new = (src[i] - src[i-1]) + dst[i-w] runs in i64 (every u64 read goes
through try_into().unwrap(), modelled by the 2^63 guard); a negative
result feeds the neg_carry register, a positive one is first reduced by
the pending carry (saturating at zero). -/

/-- i64::try_from for a u64 value (try_into().unwrap(); none = panic). -/
def toI64 (n : Nat) : Option Int :=
  if n < I64MAX then some (n : Int) else none

/-- The per-slot loop of unrolled over one vector. -/
def unrollLoop (w : Nat) (src : List Nat) (dst : List Nat)
    (neg_carry : Nat) (i fuel : Nat) : Option (List Nat) :=
  match fuel with
  | 0 => some dst
  | fuel' + 1 =>
      let o_l : Option Int :=
        if i < w then some 0 else toI64 (dst.getD (i - w) 0)
      let o_p : Option Int :=
        if 0 < i then toI64 (src.getD (i - 1) 0) else some 0
      match o_l, o_p, toI64 (src.getD i 0) with
      | some v_l, some v_p, some v_c =>
          let new : Int := (v_c - v_p) + v_l
          let (val, carry) :=
            if new < 0 then
              (0, neg_carry + (-new).toNat)
            else
              let n := new.toNat
              if n ≤ neg_carry then (0, neg_carry - n)
              else (n - neg_carry, 0)
          unrollLoop w src (dst.set i val) carry (i + 1) fuel'
      | _, _, _ => none

/-- unrolled of one vector. -/
def unrollVec (w : Nat) (src : List Nat) : Option (List Nat) :=
  unrollLoop w src src 0 0 src.length

/-- unrolled on the whole store (returns a fresh store). -/
def TimeSeries.unrolled (w : Nat) (s : TimeSeries K Nat) :
    Option (TimeSeries K Nat) :=
  (optMapVecs (unrollVec w) s.time_series).map
    (fun ts => { s with time_series := ts })

/-! ### rekeyed / synthesize / add / checked_add_signed
(timeseries.rs lines 138-184, 234-263)

Element-wise u64 += additions wrap, hence mod 2^64; the assert_eq! on
the vector lengths is the Option guard. -/

/-- Element-wise wrapping u64 addition of two equal-length vectors
(assert_eq!(locl.len(), remote.len()) modelled by the length guard). -/
def addVec (locl remote : List Nat) : Option (List Nat) :=
  if locl.length = remote.length then
    some (List.zipWith (fun a b => (a + b) % U64) locl remote)
  else none

/-- rekeyed: fold the old keys through f, dropping None, aggregating
(element-wise adding) into the new store. -/
def rekeyedGo {U : Type} [DecidableEq U] (f : K → Option U)
    (src : List (List Nat)) (acc : TimeSeries U Nat) :
    List (K × Nat) → Option (TimeSeries U Nat)
  | [] => some acc
  | (k_old, index_old) :: rest =>
      match f k_old with
      | none => rekeyedGo f src acc rest
      | some k_new =>
          let (acc', i) := acc.get_index_or_create 0 k_new
          let ts_old := src.getD index_old []
          match addVec (acc'.time_series.getD i []) ts_old with
          | some v =>
              rekeyedGo f src
                { acc' with time_series := acc'.time_series.set i v } rest
          | none => none

/-- rekeyed on the whole store. -/
def TimeSeries.rekeyed {U : Type} [DecidableEq U] (s : TimeSeries K Nat)
    (f : K → Option U) : Option (TimeSeries U Nat) :=
  rekeyedGo f s.time_series
    { start := s.start, len := s.len, keys := [], time_series := [] } s.keys

/-- The vtemp accumulation of synthesize: sum the kin series
element-wise, skipping absent keys. -/
def synthesizeAcc (s : TimeSeries K Nat) (vtemp : List Nat) :
    List K → Option (List Nat)
  | [] => some vtemp
  | k :: rest =>
      match s.get k with
      | none => synthesizeAcc s vtemp rest
      | some tsin =>
          match addVec vtemp tsin with
          | some v => synthesizeAcc s v rest
          | none => none

/-- get_index_or_insert (timeseries.rs lines 83-94): assert the vector
length, keep the existing binding or push the given vector. -/
def TimeSeries.get_index_or_insert (s : TimeSeries K V) (k : K)
    (vec : List V) : Option (TimeSeries K V × Nat) :=
  if vec.length = s.len then
    match s.lookupKey k with
    | some v => some (s, v)
    | none =>
        let v := s.time_series.length
        some ({ s with
            time_series := s.time_series ++ [vec],
            keys := s.keys ++ [(k, v)] }, v)
  else none

/-- synthesize: add the element-wise sum of the kin series into kout. -/
def TimeSeries.synthesize (s : TimeSeries K Nat) (kin : List K) (kout : K) :
    Option (TimeSeries K Nat) := do
  let vtemp ← synthesizeAcc s (List.replicate s.len 0) kin
  let (s', _) ← s.get_index_or_insert kout vtemp
  some s'

/-- The key loop of add: intersect with the other store by lookup and
add element-wise. -/
def addGo (other : TimeSeries K Nat) (ts : List (List Nat)) :
    List (K × Nat) → Option (List (List Nat))
  | [] => some ts
  | (k, my_index) :: rest =>
      match other.get k with
      | none => addGo other ts rest
      | some remote =>
          match addVec (ts.getD my_index []) remote with
          | some v => addGo other (ts.set my_index v) rest
          | none => none

/-- add on the whole store. -/
def TimeSeries.add (s : TimeSeries K Nat) (other : TimeSeries K Nat) :
    Option (TimeSeries K Nat) :=
  (addGo other s.time_series s.keys).map
    (fun ts => { s with time_series := ts })

/-- saturating_add_u64_i64 (timeseries.rs lines 128-135): negative
values saturating_sub, positive values checked_add().unwrap() (none =
the overflow panic). -/
def saturating_add_u64_i64 (reg : Nat) (v : Int) : Option Nat :=
  if v < 0 then some (reg - (-v).toNat)
  else if reg + v.toNat < U64 then some (reg + v.toNat) else none

/-- The element loop of checked_add_signed over one vector pair. -/
def satAddVecGo : List Nat → List Int → Option (List Nat)
  | [], [] => some []
  | a :: as, b :: bs =>
      match saturating_add_u64_i64 a b, satAddVecGo as bs with
      | some v, some r => some (v :: r)
      | _, _ => none
  | _, _ => none

/-- Element-wise saturating_add_u64_i64 of a signed vector into an
unsigned one (with the assert_eq! length guard). -/
def satAddVec (locl : List Nat) (remote : List Int) : Option (List Nat) :=
  if locl.length = remote.length then satAddVecGo locl remote else none

/-- The key loop of checked_add_signed: iterate the other (i64) store's
keys, get_or_create locally, add saturating. -/
def checkedAddSignedGo (di : TimeSeries K Int) (acc : TimeSeries K Nat) :
    List (K × Nat) → Option (TimeSeries K Nat)
  | [] => some acc
  | (k, other_index) :: rest =>
      let remote := di.time_series.getD other_index []
      let (acc', i) := acc.get_index_or_create 0 k
      match satAddVec (acc'.time_series.getD i []) remote with
      | some v =>
          checkedAddSignedGo di
            { acc' with time_series := acc'.time_series.set i v } rest
      | none => none

/-- checked_add_signed on the whole store. -/
def TimeSeries.checked_add_signed (s : TimeSeries K Nat)
    (other : TimeSeries K Int) : Option (TimeSeries K Nat) :=
  checkedAddSignedGo other s other.keys

/-! ## Record enums and codecs (src/src/lib.rs, src/src/rki.rs) -/

/-- enum Sex { Male, Female, Unknown }. -/
inductive Sex where
  | Male
  | Female
  | Unknown
deriving DecidableEq, Repr

/-- The serde renames on Sex (identical in lib.rs and rki.rs):
"M" ↦ Male, "W" ↦ Female, "unbekannt" ↦ Unknown. -/
def Sex.deserialize (s : String) : Option Sex :=
  if s = "M" then some .Male
  else if s = "W" then some .Female
  else if s = "unbekannt" then some .Unknown
  else none

/-- impl fmt::Display for Sex in src/src/lib.rs (lines 30-38):
Male ↦ "M", Female ↦ "F", Unknown ↦ "unbekannt". -/
def Sex.display : Sex → String
  | .Male => "M"
  | .Female => "F"
  | .Unknown => "unbekannt"

/-- impl fmt::Display for Sex in src/src/rki.rs (lines 30-38):
Male ↦ "M", Female ↦ "W", Unknown ↦ "unbekannt". -/
def Sex.displayRki : Sex → String
  | .Male => "M"
  | .Female => "W"
  | .Unknown => "unbekannt"

/-- enum ReportFlag, serde-tagged "1" / "-1" / "-9" / "0". -/
inductive ReportFlag where
  | NewlyReported
  | Retracted
  | NotApplicable
  | Consistent
deriving DecidableEq, Repr

/-- struct AgeGroup { low: u16, high: Option<u16> }. -/
structure AgeGroup where
  low : Nat
  high : Option Nat
deriving DecidableEq, Repr

/-- MaybeAgeGroup: Option<AgeGroup>, None rendered as "unbekannt". -/
abbrev MaybeAgeGroup : Type := Option AgeGroup

/-- u16::from_str on a character list: digits only (the inputs of
interest carry no sign), non-empty, value within u16 range. -/
def parseU16 (cs : List Char) : Option Nat :=
  if cs ≠ [] ∧ cs.all Char.isDigit then
    let v := cs.foldl (fun acc c => acc * 10 + (c.toNat - 48)) 0
    if v < 65536 then some v else none
  else none

/-- str::split_once(sep): the pieces before and after the first
separator occurrence. -/
def splitOnce (sep : Char) : List Char → Option (List Char × List Char)
  | [] => none
  | c :: rest =>
      if c = sep then some ([], rest)
      else (splitOnce sep rest).map (fun p => (c :: p.1, p.2))

/-- impl FromStr for AgeGroup in src/src/rki.rs (lines 175-203): first
strip a leading A; in the "+" branch take the slice s[1..len-1] of the
ALREADY STRIPPED string (this drops one more leading character); in the
range branch split on the dash and strip an optional A off the high
part. -/
def AgeGroup.from_str_rki (s0 : List Char) : Option AgeGroup :=
  let s := if s0.head? = some 'A' then s0.tail else s0
  if s.getLast? = some '+' then
    (parseU16 (s.tail.dropLast)).map (fun lower_bound =>
      { low := lower_bound, high := none })
  else
    match splitOnce '-' s with
    | none => none
    | some (low, high0) =>
        let high := if high0.head? = some 'A' then high0.tail else high0
        match parseU16 low, parseU16 high with
        | some l, some h => some { low := l, high := some h }
        | _, _ => none

/-- impl FromStr for AgeGroup in src/src/lib.rs (lines 126-157): demand
the leading A of both bounds and slice the original string, so the "+"
branch reads exactly the digits. -/
def AgeGroup.from_str_lib (s : List Char) : Option AgeGroup :=
  if s.head? = some 'A' then
    if s.getLast? = some '+' then
      (parseU16 (s.tail.dropLast)).map (fun lower_bound =>
        { low := lower_bound, high := none })
    else
      match splitOnce '-' s with
      | none => none
      | some (low, high) =>
          if low.head? = some 'A' ∧ high.head? = some 'A' then
            match parseU16 low.tail, parseU16 high.tail with
            | some l, some h => some { low := l, high := some h }
            | _, _ => none
          else none
  else none

/-- "{:02}": decimal rendering zero-padded to width two. -/
def pad2 (n : Nat) : String :=
  if n < 10 then "0" ++ toString n else toString n

/-- impl fmt::Display for AgeGroup (identical in lib.rs and rki.rs):
"A{:02}" then "-A{:02}" for a bounded group or "+" for an open one. -/
def AgeGroup.display (g : AgeGroup) : String :=
  "A" ++ pad2 g.low ++
    (match g.high with
     | some v => "-A" ++ pad2 v
     | none => "+")

/-! ## The publication-diff builder (src/src/bin/rki_diff.rs) -/

/-- DistrictId = u32. -/
abbrev DistrictId : Type := Nat

/-- type PartialCaseKey = (DistrictId, MaybeAgeGroup, Sex). -/
abbrev PartialCaseKey : Type := DistrictId × MaybeAgeGroup × Sex

/-- The record fields of InfectionRecord the diff builder consumes
(dates as day numbers, counts as i32 values). -/
structure InfectionRecord where
  district_id : DistrictId
  age_group : MaybeAgeGroup
  sex : Sex
  report_date : Int
  case : ReportFlag
  death : ReportFlag
  recovered : ReportFlag
  case_count : Int
  death_count : Int
  recovered_count : Int

/-- const DELAY_CUTOFF: i64 = 28. -/
def DELAY_CUTOFF : Int := 28

/-- Counters<T> = TimeSeries<T, u64>. -/
abbrev Counters (T : Type) := TimeSeries T Nat

/-- saturating_add_u64_i32 (rki_diff.rs lines 23-30): negative v
saturating_sub of its magnitude, positive v checked_add().unwrap()
(none = the overflow panic; underflow never aborts, it clamps to 0). -/
def saturating_add_u64_i32 (reg : Nat) (v : Int) : Option Nat :=
  if v < 0 then some (reg - (-v).toNat)
  else if reg + v.toNat < U64 then some (reg + v.toNat) else none

/-- checked_add_u64_i64 (rki_diff.rs lines 32-40): checked_sub of the
magnitude for negative b (none = underflow), checked_add otherwise. -/
def checked_add_u64_i64 (a : Nat) (b : Int) : Option Nat :=
  if b < 0 then checked_sub a (-b).toNat
  else if a + b.toNat < U64 then some (a + b.toNat) else none

/-- struct PartialDiffData: the six per-publication counter stores. -/
structure PartialDiffData where
  cases_by_pub : Counters PartialCaseKey
  cases_delayed : Counters PartialCaseKey
  case_delay_total : Counters PartialCaseKey
  late_cases : Counters PartialCaseKey
  deaths_by_pub : Counters PartialCaseKey
  recovered_by_pub : Counters PartialCaseKey
deriving DecidableEq

/-- PartialDiffData::new: six empty stores sharing one calendar. -/
def PartialDiffData.new (start ends : Int) : PartialDiffData :=
  let mk : Counters PartialCaseKey :=
    { start := start, keys := [], time_series := [], len := (ends - start).toNat }
  { cases_by_pub := mk, cases_delayed := mk, case_delay_total := mk,
    late_cases := mk, deaths_by_pub := mk, recovered_by_pub := mk }

/-- prepare_diff (rki_diff.rs lines 92-123): NewlyReported keeps the
target slot; Retracted looks up the report-date slot (expect = none on
out-of-range), asserts count ≤ 0, and scans forward with find_ge for
the first slot holding at least the magnitude — returning (0, 0), i.e.
dropping the retraction, when no such slot exists; all other flags
yield (0, 0). -/
def prepare_diff (k : PartialCaseKey) (target_index : Nat)
    (target_ts : Counters PartialCaseKey) (report_date : Int)
    (flag : ReportFlag) (count : Int) : Option (Nat × Int) :=
  match flag with
  | .NewlyReported => some (target_index, count)
  | .Retracted => do
      let start_at ← target_ts.date_index report_date
      if count ≤ 0 then
        match target_ts.find_ge k start_at (-count).toNat with
        | some i => some (i, count)
        | none => some (0, 0)
      else none
  | _ => some (0, 0)

/-- apply_diff (rki_diff.rs lines 125-149): nothing happens on a zero
diff; otherwise get_or_create the key and checked_add_u64_i64 into the
chosen slot, panicking (none) when the result would leave u64. -/
def apply_diff (k : PartialCaseKey) (target_index : Nat)
    (target_ts : Counters PartialCaseKey) (report_date : Int)
    (flag : ReportFlag) (count : Int) : Option (Counters PartialCaseKey) := do
  let (index, diff) ←
    prepare_diff k target_index target_ts report_date flag count
  if diff = 0 then
    pure target_ts
  else
    let (ts1, vi) := target_ts.get_index_or_create 0 k
    let vec := ts1.time_series.getD vi []
    if index < vec.length then
      let newv ← checked_add_u64_i64 (vec.getD index 0) diff
      pure { ts1 with time_series := ts1.time_series.set vi (vec.set index newv) }
    else none

/-- get_or_create + a single saturating_add_u64_i32 into one slot, as
the three delay bookkeeping lines of submit do. -/
def satAddAt (ts : Counters PartialCaseKey) (k : PartialCaseKey)
    (index : Nat) (v : Int) : Option (Counters PartialCaseKey) :=
  let (ts1, vi) := ts.get_index_or_create 0 k
  let vec := ts1.time_series.getD vi []
  if index < vec.length then
    (saturating_add_u64_i32 (vec.getD index 0) v).map (fun newv =>
      { ts1 with time_series := ts1.time_series.set vi (vec.set index newv) })
  else none

/-- submit (rki_diff.rs lines 151-198): date is already the publication
date minus one; apply the three per-axis diffs, then the delay / late
bookkeeping for NewlyReported cases (delay must be ≥ 0, cutoff 28). -/
def PartialDiffData.submit (d : PartialDiffData) (date : Int)
    (rec : InfectionRecord) : Option PartialDiffData := do
  let index ← d.cases_by_pub.date_index date
  let k : PartialCaseKey := (rec.district_id, rec.age_group, rec.sex)
  let cases_by_pub ←
    apply_diff k index d.cases_by_pub rec.report_date rec.case rec.case_count
  let deaths_by_pub ←
    apply_diff k index d.deaths_by_pub rec.report_date rec.death rec.death_count
  let recovered_by_pub ←
    apply_diff k index d.recovered_by_pub rec.report_date rec.recovered
      rec.recovered_count
  let (case_delay, case_delay_count, late_case_count) ←
    match rec.case with
    | .NewlyReported =>
        let delay := date - rec.report_date
        if 0 ≤ delay then
          if DELAY_CUTOFF < delay then some ((0 : Int), (0 : Int), rec.case_count)
          else some (delay, rec.case_count, (0 : Int))
        else none
    | _ => some ((0 : Int), (0 : Int), (0 : Int))
  let cases_delayed ← satAddAt d.cases_delayed k index case_delay_count
  let case_delay_total ←
    satAddAt d.case_delay_total k index (case_delay * case_delay_count)
  let late_cases ← satAddAt d.late_cases k index late_case_count
  pure { cases_by_pub, cases_delayed, case_delay_total, late_cases,
         deaths_by_pub, recovered_by_pub }

/-- One record of merge_new for publication date P: main (rki_diff.rs
line 334) subtracts one day from the publication date before calling
submit, because the publication refers to the day before. -/
def mergeRecord (publication : Int) (rec : InfectionRecord)
    (d : PartialDiffData) : Option PartialDiffData :=
  d.submit (publication - 1) rec

/-! ## Stream wrapping of the diff artifact (rki_diff.rs lines 262-313)

try_load_existing opens the artifact and unconditionally wraps it in
flate2::read::GzDecoder — only gzip data decodes, a plain file errors
out.  writeback wraps the created file in flate2::write::GzEncoder
(compression level 5).  Only the choice of wrapper matters to the
claims, so it is embedded as a tag. -/

/-- The on-disk encodings a stream wrapper can produce or consume. -/
inductive StreamEncoding where
  | plain
  | gzip
deriving DecidableEq, Repr

/-- writeback (lines 307-313) writes through
flate2::write::GzEncoder::new(f, Compression::new(5)). -/
def writeback_encoding : StreamEncoding := .gzip

/-- try_load_existing (lines 262-271) reads through
flate2::read::GzDecoder::new(r): gzip input decodes, plain input is an
error. -/
def try_load_existing_reads : StreamEncoding → Bool
  | .gzip => true
  | .plain => false

/-! ## Line-protocol escaping (src/src/influxdb/readout.rs lines 77-97)

write_escaped walks s.match_indices(pat) — with a &[char] pattern every
match is a single pattern character at its position — and splices: the
unescaped gap since prev, a backslash, the matched character; finally
the tail from prev.  Strings are lists of chars (the inputs are ASCII,
so byte slicing and char slicing coincide). -/

/-- The slice s[a..b]. -/
def strSlice (s : List Char) (a b : Nat) : List Char :=
  (s.drop a).take (b - a)

/-- The match positions of a &[char] pattern: every index whose
character is in the set, in order. -/
def matchIndices (pat : List Char) (s : List Char) : List Nat :=
  (List.range s.length).filter (fun i => decide (s.getD i ' ' ∈ pat))

/-- One splice step of write_escaped: state is (prev, output); write
the gap s[prev..idx], a backslash, and the matched char s[idx..idx+1];
prev advances past the match. -/
def spliceStep (s : List Char) (st : Nat × List Char) (idx : Nat) :
    Nat × List Char :=
  (idx + 1, st.2 ++ strSlice s st.1 idx ++ '\\' :: strSlice s idx (idx + 1))

/-- write_escaped: splice all matches, then the remaining tail. -/
def write_escaped (pat : List Char) (s : List Char) : List Char :=
  let st := (matchIndices pat s).foldl (spliceStep s) (0, [])
  st.2 ++ strSlice s st.1 s.length

/-- The escape set of tag names, tag values and field names. -/
def namePat : List Char := ['\\', ',', ' ', '\t', '\n', '\r', '=']

/-- The escape set of measurements. -/
def measurementPat : List Char := ['\\', ',', ' ', '\t', '\n', '\r']

/-- write_name: escape the name set. -/
def write_name (s : List Char) : List Char := write_escaped namePat s

/-- write_measurement: escape the measurement set. -/
def write_measurement (s : List Char) : List Char :=
  write_escaped measurementPat s

/-- The measurement-and-tagset fragment of one line, as Readout::write
(lines 158-166) assembles it: the escaped measurement, then for every
tag a comma, the escaped tag name, an equals sign and the escaped tag
value. -/
def tagsetFragment (measurement : List Char)
    (tags : List (List Char × List Char)) : List Char :=
  write_measurement measurement ++
    tags.flatMap (fun kv =>
      ',' :: (write_name kv.1 ++ '=' :: write_name kv.2))

/-- The claim's character-wise description of escaping: each character
of the set is emitted with a single preceding backslash, all other
characters unchanged. -/
def escapeCharSpec (pat : List Char) (c : Char) : List Char :=
  if c ∈ pat then ['\\', c] else [c]

/-! ## Store invariants (spec §3, invariants I1/I2) -/

/-- I1 at the vector level: every stored vector has exactly len slots. -/
def TimeSeries.VecWf (s : TimeSeries K V) : Prop :=
  ∀ v ∈ s.time_series, v.length = s.len

/-- Every key binding points into the vector table. -/
def TimeSeries.KeyWf (s : TimeSeries K V) : Prop :=
  ∀ p ∈ s.keys, p.2 < s.time_series.length

/-- The store invariant: I1 plus valid key bindings. -/
def TimeSeries.Wf (s : TimeSeries K V) : Prop :=
  s.VecWf ∧ s.KeyWf

instance (s : TimeSeries K V) : Decidable s.VecWf := by
  unfold TimeSeries.VecWf
  infer_instance

instance (s : TimeSeries K V) : Decidable s.KeyWf := by
  unfold TimeSeries.KeyWf
  infer_instance

instance (s : TimeSeries K V) : Decidable s.Wf := by
  unfold TimeSeries.Wf
  infer_instance

/-! ## Concrete scenarios -/

/-- Scenario S3 key: district 1, unknown age group, unknown sex. -/
def s3k : PartialCaseKey := (1, none, Sex.Unknown)

/-- Scenario S3, first record: NewlyReported, 5 cases, report date
2020-01-02 (day 1). -/
def s3r1 : InfectionRecord :=
  { district_id := 1, age_group := none, sex := Sex.Unknown,
    report_date := 1, case := ReportFlag.NewlyReported,
    death := ReportFlag.NotApplicable, recovered := ReportFlag.NotApplicable,
    case_count := 5, death_count := 0, recovered_count := 0 }

/-- Scenario S3, second record: Retracted, count -2, report date
2020-01-02 (day 1). -/
def s3r2 : InfectionRecord :=
  { district_id := 1, age_group := none, sex := Sex.Unknown,
    report_date := 1, case := ReportFlag.Retracted,
    death := ReportFlag.NotApplicable, recovered := ReportFlag.NotApplicable,
    case_count := -2, death_count := 0, recovered_count := 0 }

/-- Calendar 2020-01-01 (day 0) to 2020-01-08 (day 7), len 7. -/
def s3d0 : PartialDiffData := PartialDiffData.new 0 7

/-- After merging the first snapshot, publication 2020-01-03 (day 2). -/
def s3d1 : Option PartialDiffData := mergeRecord 2 s3r1 s3d0

/-- After also merging the retraction, publication 2020-01-06 (day 5). -/
def s3d2 : Option PartialDiffData := s3d1.bind (mergeRecord 5 s3r2)

/-- A NewlyReported record carrying a negative case count. -/
def negCountRec : InfectionRecord :=
  { district_id := 1, age_group := none, sex := Sex.Unknown,
    report_date := 1, case := ReportFlag.NewlyReported,
    death := ReportFlag.NotApplicable, recovered := ReportFlag.NotApplicable,
    case_count := -1, death_count := 0, recovered_count := 0 }

/-- The single-key store [0,0,0,0,0,0,7,7,7,7,7,7,7] of scenario S4. -/
def s4store : TimeSeries Nat Nat :=
  { start := 0, keys := [(0, 0)], time_series := [[0,0,0,0,0,0,7,7,7,7,7,7,7]],
    len := 13 }

/-- A single-key store of length 3 holding [1,2,3]. -/
def shift3store : TimeSeries Nat Nat :=
  { start := 0, keys := [(0, 0)], time_series := [[1, 2, 3]], len := 3 }

/-- An empty i64 store over the length-3 calendar. -/
def intStore3 : TimeSeries Nat Int :=
  { start := 0, keys := [], time_series := [], len := 3 }

/-- A cases_by_pub store holding 5 cases for the S3 key at slot 1. -/
def retrStore : Counters PartialCaseKey :=
  { start := 0, keys := [(s3k, 0)], time_series := [[0, 5, 0, 0, 0, 0, 0]],
    len := 7 }

/-! ## Helper lemmas -/

theorem optMapVecs_some {f : List α → Option (List β)}
    {l : List (List α)} {l' : List (List β)} (h : optMapVecs f l = some l') :
    l'.length = l.length ∧
      ∀ (i : Nat) (v : List α), l[i]? = some v →
        ∃ v', f v = some v' ∧ l'[i]? = some v' := by
  induction l generalizing l' with
  | nil =>
      simp only [optMapVecs] at h
      cases h
      exact ⟨rfl, fun i v hv => by simp at hv⟩
  | cons v r ih =>
      simp only [optMapVecs] at h
      cases hfv : f v with
      | none => rw [hfv] at h; exact absurd h (by simp)
      | some v' =>
          cases hr : optMapVecs f r with
          | none => rw [hfv, hr] at h; exact absurd h (by simp)
          | some r' =>
              rw [hfv, hr] at h
              cases h
              obtain ⟨hlen, hget⟩ := ih hr
              refine ⟨by simp [hlen], ?_⟩
              intro i w hw
              match i with
              | 0 =>
                  simp only [List.getElem?_cons_zero] at hw ⊢
                  cases hw
                  exact ⟨v', hfv, rfl⟩
              | i + 1 =>
                  simp only [List.getElem?_cons_succ] at hw ⊢
                  exact hget i w hw

theorem optMapVecs_isSome {f : List α → Option (List β)}
    {l : List (List α)} (h : ∀ v ∈ l, (f v).isSome) :
    ∃ l', optMapVecs f l = some l' := by
  induction l with
  | nil => exact ⟨[], rfl⟩
  | cons v r ih =>
      obtain ⟨v', hv⟩ := Option.isSome_iff_exists.mp (h v (by simp))
      obtain ⟨r', hr⟩ := ih (fun w hw => h w (by simp [hw]))
      exact ⟨v' :: r', by simp [optMapVecs, hv, hr]⟩

/-- A stored vector reached through get is a member of the table. -/
theorem TimeSeries.get_mem {s : TimeSeries K V} {k : K} {v : List V}
    (h : s.get k = some v) : v ∈ s.time_series := by
  unfold TimeSeries.get at h
  cases hl : s.lookupKey k with
  | none => rw [hl] at h; simp at h
  | some i =>
      rw [hl] at h
      simp only [Option.some_bind] at h
      exact List.getElem?_mem h

/-- Replacing the vector table via a successful optMapVecs transports
get: the new store holds f of the old vector. -/
theorem TimeSeries.get_optMapVecs {s : TimeSeries K V}
    {f : List V → Option (List V')} {ts' : List (List V')}
    (hmap : optMapVecs f s.time_series = some ts')
    {k : K} {v : List V} (h : s.get k = some v) :
    ∃ v', f v = some v' ∧
      (TimeSeries.get { s with time_series := ts' } k) = some v' := by
  obtain ⟨-, hget⟩ := optMapVecs_some hmap
  unfold TimeSeries.get at h ⊢
  cases hl : s.lookupKey k with
  | none => rw [hl] at h; simp at h
  | some i =>
      rw [hl] at h
      simp only [Option.some_bind] at h
      obtain ⟨v', hfv, hv'⟩ := hget i v h
      have hl' : TimeSeries.lookupKey { s with time_series := ts' } k =
          some i := hl
      rw [hl']
      exact ⟨v', hfv, by simpa using hv'⟩

/-- rotate_right(w) followed by dropping the first w slots is the first
len - w slots of the original vector. -/
theorem rotateRight_drop {w : Nat} {v : List α} (h : w ≤ v.length) :
    (rotateRight w v).drop w = v.take (v.length - w) := by
  unfold rotateRight
  have hlen : (v.drop (v.length - w)).length = w := by
    rw [List.length_drop]
    omega
  have hd := List.drop_left (v.drop (v.length - w)) (v.take (v.length - w))
  rw [hlen] at hd
  exact hd

/-- shiftVec succeeds on a long-enough vector and realizes the shift
law pointwise. -/
theorem shiftVec_spec {w : Nat} {v : List Nat} (h : w ≤ v.length) :
    ∃ v', shiftVec w v = some v' ∧ v'.length = v.length ∧
      ∀ i, i < v.length →
        v'.getD i 0 = if i < w then 0 else v.getD (i - w) 0 := by
  refine ⟨List.replicate w 0 ++ v.take (v.length - w), ?_, ?_, ?_⟩
  · simp only [shiftVec, if_pos h, rotateRight_drop h]
  · simp only [List.length_append, List.length_replicate, List.length_take]
    omega
  · intro i hi
    by_cases hiw : i < w
    · rw [if_pos hiw, List.getD_eq_getElem?_getD, List.getElem?_append,
        List.length_replicate, if_pos hiw, List.getElem?_replicate,
        if_pos hiw]
      rfl
    · rw [if_neg hiw, List.getD_eq_getElem?_getD, List.getElem?_append,
        List.length_replicate, if_neg hiw, List.getElem?_take,
        if_pos (by omega), List.getD_eq_getElem?_getD]

/-- get transported through a map over the vector table. -/
theorem TimeSeries.get_map {s : TimeSeries K V} {g : List V → List V'}
    {k : K} {v : List V} (h : s.get k = some v) :
    (TimeSeries.get { s with time_series := s.time_series.map g } k) =
      some (g v) := by
  unfold TimeSeries.get at h ⊢
  cases hl : s.lookupKey k with
  | none => rw [hl] at h; simp at h
  | some i =>
      rw [hl] at h
      simp only [Option.some_bind] at h
      have hl' : TimeSeries.lookupKey
          { s with time_series := s.time_series.map g } k = some i := hl
      rw [hl']
      simp only [Option.some_bind]
      rw [List.getElem?_map, h]
      rfl

theorem cumsumGo_length (accum : Nat) (v : List Nat) :
    (cumsumGo accum v).length = v.length := by
  induction v generalizing accum with
  | nil => rfl
  | cons x xs ih => simp [cumsumGo, ih]

/-- As long as nothing can wrap, the cumsum accumulator loop computes
prefix sums offset by the incoming accumulator. -/
theorem cumsumGo_getD {accum : Nat} {v : List Nat}
    (h : accum + v.sum < U64) :
    ∀ i, i < v.length →
      (cumsumGo accum v).getD i 0 = accum + (v.take (i + 1)).sum := by
  induction v generalizing accum with
  | nil => intro i hi; simp at hi
  | cons x xs ih =>
      intro i hi
      have hx : (accum + x) % U64 = accum + x := by
        apply Nat.mod_eq_of_lt
        simp only [List.sum_cons] at h
        omega
      match i with
      | 0 => simp [cumsumGo, hx]
      | i + 1 =>
          simp only [cumsumGo, List.getD_cons_succ]
          rw [hx]
          have h' : (accum + x) + xs.sum < U64 := by
            simp only [List.sum_cons] at h
            omega
          rw [ih h' i (by simpa using hi)]
          simp [Nat.add_assoc]

theorem cumsumVec_length (v : List Nat) : (cumsumVec v).length = v.length :=
  cumsumGo_length 0 v

/-- cumsum really is the prefix sum when the total fits in u64. -/
theorem cumsumVec_getD {v : List Nat} (h : v.sum < U64) :
    ∀ i, i < v.length → (cumsumVec v).getD i 0 = (v.take (i + 1)).sum := by
  intro i hi
  have := @cumsumGo_getD 0 v (by simpa using h) i hi
  simpa using this

theorem sum_take_mono (v : List Nat) {a b : Nat} (hab : a ≤ b) :
    (v.take a).sum ≤ (v.take b).sum := by
  have : v.take b = v.take a ++ (v.drop a).take (b - a) := by
    rw [← List.take_add v a (b - a)]
    congr 1
    omega
  rw [this, List.sum_append]
  omega

/-- The subtraction loop of diff: running it from position t with the
already-subtracted region below t produces the fully subtracted
vector. -/
theorem diffLoop_spec {c : List Nat} {w : Nat}
    (mono : ∀ t, t + w < c.length → c.getD t 0 ≤ c.getD (t + w) 0) :
    ∀ (fuel t : Nat) (vec : List Nat), t + fuel = c.length - w →
      w ≤ c.length → vec.length = c.length →
      (∀ p, p < c.length → vec.getD p 0 =
        if p < t then c.getD (p + w) 0 - c.getD p 0 else c.getD p 0) →
      ∃ out, diffLoop w vec (w + t) fuel = some out ∧
        out.length = c.length ∧
        ∀ p, p < c.length → out.getD p 0 =
          if p < c.length - w then c.getD (p + w) 0 - c.getD p 0
          else c.getD p 0 := by
  intro fuel
  induction fuel with
  | zero =>
      intro t vec ht hw hlen hpt
      refine ⟨vec, rfl, hlen, ?_⟩
      intro p hp
      rw [hpt p hp]
      by_cases hc : p < c.length - w
      · rw [if_pos (by omega), if_pos hc]
      · rw [if_neg (by omega), if_neg hc]
  | succ fuel ih =>
      intro t vec ht hw hlen hpt
      have htlt : t < c.length - w := by omega
      have hiw : w + t < c.length := by omega
      have hrd1 : vec.getD (w + t) 0 = c.getD (w + t) 0 := by
        rw [hpt (w + t) hiw, if_neg (by omega)]
      have hrd2 : vec.getD (w + t - w) 0 = c.getD t 0 := by
        have : w + t - w = t := by omega
        rw [this, hpt t (by omega), if_neg (by omega)]
      have hsub : checked_sub (vec.getD (w + t) 0) (vec.getD (w + t - w) 0) =
          some (c.getD (t + w) 0 - c.getD t 0) := by
        rw [hrd1, hrd2, Nat.add_comm w t]
        have hm := mono t (by omega)
        rw [checked_sub, if_pos hm]
      have hset : ∀ p, p < c.length →
          ((vec.set (w + t - w) (c.getD (t + w) 0 - c.getD t 0)).getD p 0 =
            if p < t + 1 then c.getD (p + w) 0 - c.getD p 0
            else c.getD p 0) := by
        intro p hp
        have hwt : w + t - w = t := by omega
        rw [hwt]
        by_cases hpeq : p = t
        · subst hpeq
          have hplen : p < vec.length := by omega
          rw [List.getD_eq_getElem?_getD, List.getElem?_set_self]
          · simp [hplen]
          · exact hplen
        · rw [List.getD_eq_getElem?_getD, List.getElem?_set_ne (by omega),
            ← List.getD_eq_getElem?_getD, hpt p hp]
          by_cases hc : p < t
          · rw [if_pos hc, if_pos (by omega)]
          · rw [if_neg hc, if_neg (by omega)]
      obtain ⟨out, hout, holen, hopt⟩ :=
        ih (t + 1) (vec.set (w + t - w) (c.getD (t + w) 0 - c.getD t 0))
          (by omega) hw (by simpa using hlen) hset
      refine ⟨out, ?_, holen, hopt⟩
      rw [diffLoop, hsub]
      have : w + t + 1 = w + (t + 1) := by omega
      rw [this]
      exact hout

/-- diff of one monotone vector: success plus the pointwise
characterization. -/
theorem diffVec_spec {c : List Nat} {w : Nat} (hw : w ≤ c.length)
    (mono : ∀ t, t + w < c.length → c.getD t 0 ≤ c.getD (t + w) 0) :
    ∃ r, diffVec w c = some r ∧ r.length = c.length ∧
      (∀ i, i < w → r.getD i 0 = 0) ∧
      (∀ i, w ≤ i → i < c.length →
        r.getD i 0 = c.getD i 0 - c.getD (i - w) 0) := by
  obtain ⟨out, hout, holen, hopt⟩ :=
    diffLoop_spec mono (c.length - w) 0 c (by omega) hw rfl
      (by intro p hp; rw [if_neg (by omega)])
  have hout' : diffLoop w c w (c.length - w) = some out := hout
  have hwo : w ≤ out.length := by omega
  refine ⟨List.replicate w 0 ++ out.take (out.length - w), ?_, ?_, ?_, ?_⟩
  · show (diffLoop w c w (c.length - w)).bind _ = _
    rw [hout', Option.some_bind, if_pos hwo, rotateRight_drop hwo]
  · simp only [List.length_append, List.length_replicate, List.length_take]
    omega
  · intro i hiw
    rw [List.getD_eq_getElem?_getD, List.getElem?_append,
      List.length_replicate, if_pos hiw, List.getElem?_replicate, if_pos hiw]
    rfl
  · intro i hwi hi
    rw [List.getD_eq_getElem?_getD, List.getElem?_append,
      List.length_replicate, if_neg (by omega), List.getElem?_take,
      if_pos (by omega), ← List.getD_eq_getElem?_getD]
    rw [hopt (i - w) (by omega), if_pos (by omega)]
    have : i - w + w = i := by omega
    rw [this]

/-- Difference of two prefix sums is the sum over the window between
them. -/
theorem sum_take_sub_take {v : List Nat} {i w : Nat} (hwi : w ≤ i) :
    (v.take (i + 1)).sum - (v.take (i + 1 - w)).sum =
      ((v.drop (i + 1 - w)).take w).sum := by
  have h1 : i + 1 - w + w = i + 1 := by omega
  have hsplit : v.take (i + 1) =
      v.take (i + 1 - w) ++ (v.drop (i + 1 - w)).take w := by
    conv_lhs => rw [← h1]
    exact List.take_add v (i + 1 - w) w
  rw [hsplit, List.sum_append]
  omega

/-- One slot of the trailing window of width one is the slot itself. -/
theorem sum_take_one_drop {v : List Nat} :
    ∀ {i : Nat}, i < v.length → ((v.drop i).take 1).sum = v.getD i 0 := by
  induction v with
  | nil => intro i hi; simp at hi
  | cons x xs ih =>
      intro i hi
      match i with
      | 0 => simp
      | i + 1 =>
          simp only [List.drop_succ_cons, List.getD_cons_succ]
          exact ih (by simpa using hi)

/-- Inversion of a successful find_ge: the key is present and the found
slot is in range, at or after start_at, and holds at least value. -/
theorem TimeSeries.find_ge_some {s : TimeSeries K Nat} {k : K}
    {start_at value i : Nat} (h : s.find_ge k start_at value = some i) :
    ∃ vi vec, s.lookupKey k = some vi ∧ s.time_series[vi]? = some vec ∧
      start_at ≤ i ∧ i < vec.length ∧ value ≤ vec.getD i 0 := by
  unfold TimeSeries.find_ge TimeSeries.get at h
  cases hl : s.lookupKey k with
  | none => rw [hl] at h; simp at h
  | some vi =>
      rw [hl] at h
      simp only [Option.some_bind] at h
      cases hv : s.time_series[vi]? with
      | none => rw [hv] at h; simp at h
      | some vec =>
          rw [hv] at h
          simp only [Option.some_bind] at h
          have hmem := List.mem_of_find?_eq_some h
          rw [List.mem_range'_1] at hmem
          have hval' := List.find?_some h
          have hval := of_decide_eq_true hval'
          exact ⟨vi, vec, rfl, hv, hmem.1, by omega, hval⟩

/-- The full semantics of apply_diff on a Retracted record with a
strictly negative count and an in-range report date: if find_ge finds
no slot holding the magnitude, the store is returned unchanged;
otherwise the magnitude is subtracted (checked, but it cannot fail) at
the found slot. -/
theorem apply_diff_retracted {ts : Counters PartialCaseKey}
    {k : PartialCaseKey} {ti : Nat} {rd : Int} {c : Int} {start_at : Nat}
    (hd : ts.date_index rd = some start_at) (hc : c < 0) :
    (ts.find_ge k start_at (-c).toNat = none →
      apply_diff k ti ts rd ReportFlag.Retracted c = some ts) ∧
    (∀ i, ts.find_ge k start_at (-c).toNat = some i →
      ∃ vi vec, ts.lookupKey k = some vi ∧
        ts.time_series[vi]? = some vec ∧
        (-c).toNat ≤ vec.getD i 0 ∧
        apply_diff k ti ts rd ReportFlag.Retracted c =
          some { ts with
                 time_series := ts.time_series.set vi
                   (vec.set i (vec.getD i 0 - (-c).toNat)) }) := by
  have hcle : c ≤ 0 := le_of_lt hc
  constructor
  · intro hfind
    have hprep : prepare_diff k ti ts rd ReportFlag.Retracted c =
        some (0, 0) := by
      simp only [prepare_diff, hd, Option.pure_def, Option.bind_eq_bind,
        Option.some_bind, if_pos hcle, hfind]
    simp only [apply_diff, hprep, Option.pure_def, Option.bind_eq_bind,
      Option.some_bind, if_pos rfl]
    rfl
  · intro i hfind
    obtain ⟨vi, vec, hl, hv, hsi, hiv, hval⟩ := TimeSeries.find_ge_some hfind
    have hprep : prepare_diff k ti ts rd ReportFlag.Retracted c =
        some (i, c) := by
      simp only [prepare_diff, hd, Option.pure_def, Option.bind_eq_bind,
        Option.some_bind, if_pos hcle, hfind]
    have hcne : ¬ (c = 0) := by omega
    have hgoc : ts.get_index_or_create 0 k = (ts, vi) := by
      unfold TimeSeries.get_index_or_create
      rw [hl]
    have hgetD : ts.time_series.getD vi [] = vec := by
      rw [List.getD_eq_getElem?_getD, hv]
      rfl
    have hchk : checked_add_u64_i64 (vec.getD i 0) c =
        some (vec.getD i 0 - (-c).toNat) := by
      rw [checked_add_u64_i64, if_pos hc, checked_sub, if_pos hval]
    refine ⟨vi, vec, hl, hv, hval, ?_⟩
    simp only [apply_diff, hprep, Option.pure_def, Option.bind_eq_bind,
      Option.some_bind, hgoc, hgetD, hchk, if_neg hcne, if_pos hiv]

/-- Slices with both bounds shifted by one step into the tail. -/
theorem strSlice_succ_succ (c : Char) (s : List Char) (a b : Nat) :
    strSlice (c :: s) (a + 1) (b + 1) = strSlice s a b := by
  unfold strSlice
  rw [List.drop_succ_cons, Nat.succ_sub_succ]

/-- The match positions of a cons: position 0 when the head matches,
then the tail's positions shifted by one. -/
theorem matchIndices_cons (pat : List Char) (c : Char) (s : List Char) :
    matchIndices pat (c :: s) =
      (if c ∈ pat then [0] else []) ++ (matchIndices pat s).map (· + 1) := by
  unfold matchIndices
  rw [List.length_cons, List.range_succ_eq_map, List.filter_cons]
  have hmap : (List.filter (fun i => decide ((c :: s).getD i ' ' ∈ pat))
      (List.map (· + 1) (List.range s.length))) =
      ((List.range s.length).filter
        (fun i => decide (s.getD i ' ' ∈ pat))).map (· + 1) := by
    rw [List.filter_map]
    have hpred : ((fun i => decide ((c :: s).getD i ' ' ∈ pat)) ∘
        fun x => x + 1) = (fun i => decide (s.getD i ' ' ∈ pat)) := by
      funext i
      simp only [Function.comp_apply, List.getD_cons_succ]
    rw [hpred]
  rw [hmap]
  by_cases hc : c ∈ pat
  · simp [List.getD_cons_zero, hc]
  · simp [List.getD_cons_zero, hc]

/-- Splicing shifted match positions over the cons behaves like
splicing the originals over the tail, with the position in the state
shifted by one. -/
theorem spliceFold_shift (c : Char) (s : List Char) :
    ∀ (idxs : List Nat) (prev : Nat) (acc : List Char),
      (idxs.map (· + 1)).foldl (spliceStep (c :: s)) (prev + 1, acc) =
        ((idxs.foldl (spliceStep s) (prev, acc)).1 + 1,
          (idxs.foldl (spliceStep s) (prev, acc)).2) := by
  intro idxs
  induction idxs with
  | nil => intro prev acc; rfl
  | cons j rest ih =>
      intro prev acc
      simp only [List.map_cons, List.foldl_cons]
      have hstep : spliceStep (c :: s) (prev + 1, acc) (j + 1) =
          ((spliceStep s (prev, acc) j).1 + 1,
            (spliceStep s (prev, acc) j).2) := by
        unfold spliceStep
        simp only [strSlice_succ_succ]
      rw [hstep]
      exact ih (spliceStep s (prev, acc) j).1 (spliceStep s (prev, acc) j).2

/-- A prefix already in the output accumulator passes through the
splice fold untouched. -/
theorem spliceFold_out_append (s : List Char) :
    ∀ (idxs : List Nat) (pre : List Char) (prev : Nat) (acc : List Char),
      (idxs.foldl (spliceStep s) (prev, pre ++ acc)).1 =
        (idxs.foldl (spliceStep s) (prev, acc)).1 ∧
      (idxs.foldl (spliceStep s) (prev, pre ++ acc)).2 =
        pre ++ (idxs.foldl (spliceStep s) (prev, acc)).2 := by
  intro idxs
  induction idxs with
  | nil => intro pre prev acc; exact ⟨rfl, rfl⟩
  | cons j rest ih =>
      intro pre prev acc
      simp only [List.foldl_cons]
      have hstep : spliceStep s (prev, pre ++ acc) j =
          ((spliceStep s (prev, acc) j).1,
            pre ++ (spliceStep s (prev, acc) j).2) := by
        unfold spliceStep
        simp only [List.append_assoc]
      rw [hstep]
      exact ih pre (spliceStep s (prev, acc) j).1 (spliceStep s (prev, acc) j).2

/-- The splice-based write_escaped is the character-wise escape map. -/
theorem write_escaped_flatMap (pat : List Char) :
    ∀ s : List Char, write_escaped pat s = s.flatMap (escapeCharSpec pat) := by
  intro s
  induction s with
  | nil => rfl
  | cons c s ih =>
      unfold write_escaped at ih ⊢
      rw [matchIndices_cons]
      by_cases hc : c ∈ pat
      · rw [if_pos hc]
        simp only [List.cons_append, List.nil_append, List.foldl_cons]
        have hstep : spliceStep (c :: s) (0, []) 0 = (1, ['\\', c]) := rfl
        rw [hstep]
        have hB := spliceFold_shift c s (matchIndices pat s) 0 ['\\', c]
        rw [hB]
        have hC := spliceFold_out_append s (matchIndices pat s) ['\\', c] 0 []
        rw [List.append_nil] at hC
        rw [hC.1, hC.2]
        have htail : strSlice (c :: s)
            ((List.foldl (spliceStep s) (0, []) (matchIndices pat s)).1 + 1)
            (c :: s).length =
            strSlice s
              (List.foldl (spliceStep s) (0, []) (matchIndices pat s)).1
              s.length := by
          rw [List.length_cons]
          exact strSlice_succ_succ c s _ s.length
        rw [htail]
        simp only [List.flatMap_cons, escapeCharSpec, if_pos hc]
        rw [← ih]
        simp
      · rw [if_neg hc]
        simp only [List.nil_append]
        cases hmi : matchIndices pat s with
        | nil =>
            simp only [hmi, List.map_nil, List.foldl_nil]
            have : strSlice (c :: s) 0 (c :: s).length = c :: s := by
              unfold strSlice
              simp
            rw [this]
            rw [hmi] at ih
            simp only [List.foldl_nil] at ih
            have hs : strSlice s 0 s.length = s := by
              unfold strSlice
              simp
            rw [hs] at ih
            simp only [List.nil_append] at ih
            simp only [List.flatMap_cons, escapeCharSpec, if_neg hc]
            rw [← ih]
            rfl
        | cons j rest =>
            simp only [hmi, List.map_cons, List.foldl_cons]
            have hstep : spliceStep (c :: s) (0, []) (j + 1) =
                ((spliceStep s (0, []) j).1 + 1,
                  c :: (spliceStep s (0, []) j).2) := by
              unfold spliceStep strSlice
              simp only [Nat.succ_sub_succ, List.drop_succ_cons,
                List.nil_append, Nat.sub_zero, List.drop_zero]
              rw [List.take_succ_cons]
              rfl
            rw [hstep]
            have hB := spliceFold_shift c s rest (spliceStep s (0, []) j).1
              (c :: (spliceStep s (0, []) j).2)
            rw [hB]
            have hC := spliceFold_out_append s rest [c]
              (spliceStep s (0, []) j).1 (spliceStep s (0, []) j).2
            simp only [List.singleton_append] at hC
            rw [hC.1, hC.2]
            have htail : strSlice (c :: s)
                ((List.foldl (spliceStep s) (spliceStep s (0, []) j)
                  rest).1 + 1) (c :: s).length =
                strSlice s
                  (List.foldl (spliceStep s) (spliceStep s (0, []) j)
                    rest).1 s.length := by
              rw [List.length_cons]
              exact strSlice_succ_succ c s _ s.length
            rw [htail]
            simp only [List.flatMap_cons, escapeCharSpec, if_neg hc]
            rw [hmi] at ih
            simp only [List.foldl_cons] at ih
            rw [← ih]
            rfl

/-! ### Invariant preservation lemmas (for the store invariant claim) -/

theorem wf_set_slot {s : TimeSeries K Nat} (hwf : s.Wf) {i : Nat}
    {v : List Nat} (hv : v.length = s.len) :
    TimeSeries.Wf { s with time_series := s.time_series.set i v } := by
  obtain ⟨hvec, hkey⟩ := hwf
  constructor
  · intro w hw
    rcases List.mem_or_eq_of_mem_set hw with hmem | rfl
    · exact hvec w hmem
    · exact hv
  · intro p hp
    simpa using hkey p hp

/-- get_index_or_create: the result store is well-formed, shares the
calendar, and the returned index points at a stored vector of length
len. -/
theorem get_index_or_create_spec {s : TimeSeries K Nat} (z : Nat) (k : K)
    (hwf : s.Wf) :
    ((s.get_index_or_create z k).1).Wf ∧
    (s.get_index_or_create z k).1.len = s.len ∧
    (s.get_index_or_create z k).2 <
      (s.get_index_or_create z k).1.time_series.length ∧
    ((s.get_index_or_create z k).1.time_series.getD
      (s.get_index_or_create z k).2 []).length = s.len := by
  obtain ⟨hvec, hkey⟩ := hwf
  unfold TimeSeries.get_index_or_create
  cases hl : s.lookupKey k with
  | some i =>
      have hi : i < s.time_series.length := by
        unfold TimeSeries.lookupKey at hl
        cases hf : s.keys.find? (fun p => decide (p.1 = k)) with
        | none => rw [hf] at hl; exact absurd hl (by simp)
        | some p =>
            rw [hf] at hl
            have hl2 : p.2 = i := by simpa using hl
            exact hl2 ▸ hkey p (List.mem_of_find?_eq_some hf)
      refine ⟨⟨hvec, hkey⟩, rfl, hi, ?_⟩
      rw [List.getD_eq_getElem s.time_series [] hi]
      exact hvec s.time_series[i] (List.getElem_mem hi)
  | none =>
      refine ⟨⟨?_, ?_⟩, rfl, ?_, ?_⟩
      · intro w hw
        rcases List.mem_append.mp hw with hmem | hmem
        · exact hvec w hmem
        · simp only [List.mem_singleton] at hmem
          subst hmem
          exact List.length_replicate s.len z
      · intro p hp
        rcases List.mem_append.mp hp with hmem | hmem
        · have := hkey p hmem
          simp only [List.length_append, List.length_singleton]
          omega
        · simp only [List.mem_singleton] at hmem
          subst hmem
          simp only [List.length_append, List.length_singleton]
          omega
      · simp only [List.length_append, List.length_singleton]
        omega
      · rw [List.getD_eq_getElem?_getD,
          List.getElem?_append_right (le_refl s.time_series.length),
          Nat.sub_self]
        simp


/-- Wf transport along a length-preserving optMapVecs pass. -/
theorem wf_of_optMapVecs {s : TimeSeries K Nat}
    {f : List Nat → Option (List Nat)} {ts' : List (List Nat)}
    (h : optMapVecs f s.time_series = some ts')
    (hf : ∀ v ∈ s.time_series, ∀ v', f v = some v' → v'.length = s.len)
    (hwf : s.Wf) : TimeSeries.Wf { s with time_series := ts' } := by
  obtain ⟨hvec, hkey⟩ := hwf
  obtain ⟨hlen, hget⟩ := optMapVecs_some h
  constructor
  · intro v' hv'
    obtain ⟨i, hvi⟩ := List.mem_iff_getElem?.mp hv'
    have hilt : i < s.time_series.length := by
      by_contra hcon
      have hge : ts'.length ≤ i := by omega
      rw [List.getElem?_eq_none hge] at hvi
      exact absurd hvi (by simp)
    have hsv : s.time_series[i]? = some s.time_series[i] :=
      List.getElem?_eq_getElem hilt
    obtain ⟨v'', hfv, hv''⟩ := hget i s.time_series[i] hsv
    rw [hvi] at hv''
    cases hv''
    exact hf s.time_series[i] (List.getElem_mem hilt) v' hfv
  · intro p hp
    have := hkey p hp
    simpa [hlen] using this

theorem diffLoop_length {w : Nat} :
    ∀ (fuel i : Nat) (vec out : List Nat),
      diffLoop w vec i fuel = some out → out.length = vec.length := by
  intro fuel
  induction fuel with
  | zero =>
      intro i vec out h
      cases h
      rfl
  | succ fuel ih =>
      intro i vec out h
      rw [diffLoop] at h
      cases hs : checked_sub (vec.getD i 0) (vec.getD (i - w) 0) with
      | none => rw [hs] at h; exact absurd h (by simp)
      | some v =>
          rw [hs] at h
          have := ih (i + 1) (vec.set (i - w) v) out h
          simpa using this

theorem rotateRight_length (w : Nat) (v : List α) :
    (rotateRight w v).length = v.length := by
  unfold rotateRight
  simp only [List.length_append, List.length_drop, List.length_take]
  omega

theorem diffVec_length {w : Nat} {vec r : List Nat}
    (h : diffVec w vec = some r) : r.length = vec.length := by
  unfold diffVec at h
  cases ho : diffLoop w vec w (vec.length - w) with
  | none => rw [ho] at h; exact absurd h (by simp)
  | some out =>
      rw [ho] at h
      simp only [Option.bind_eq_bind, Option.some_bind] at h
      have hol := diffLoop_length (vec.length - w) w vec out ho
      by_cases hwo : w ≤ out.length
      · rw [if_pos hwo] at h
        cases h
        simp only [List.length_append, List.length_replicate,
          List.length_drop, rotateRight_length]
        omega
      · rw [if_neg hwo] at h
        exact absurd h (by simp)

theorem shiftVec_length {w : Nat} {vec r : List Nat}
    (h : shiftVec w vec = some r) : r.length = vec.length := by
  unfold shiftVec at h
  by_cases hw : w ≤ vec.length
  · rw [if_pos hw] at h
    cases h
    simp only [List.length_append, List.length_replicate, List.length_drop,
      rotateRight_length]
    omega
  · rw [if_neg hw] at h
    exact absurd h (by simp)

theorem unrollLoop_length {w : Nat} {src : List Nat} :
    ∀ (fuel i carry : Nat) (dst out : List Nat),
      unrollLoop w src dst carry i fuel = some out →
      out.length = dst.length := by
  intro fuel
  induction fuel with
  | zero =>
      intro i carry dst out h
      have h2 : some dst = some out := h
      cases h2
      rfl
  | succ fuel ih =>
      intro i carry dst out h
      rw [unrollLoop] at h
      simp only at h
      cases hl : (if i < w then some (0 : Int)
          else toI64 (dst.getD (i - w) 0)) with
      | none => rw [hl] at h; exact absurd h (by simp)
      | some v_l =>
          cases hp : (if 0 < i then toI64 (src.getD (i - 1) 0)
              else some (0 : Int)) with
          | none => rw [hl, hp] at h; exact absurd h (by simp)
          | some v_p =>
              cases hc : toI64 (src.getD i 0) with
              | none => rw [hl, hp, hc] at h; exact absurd h (by simp)
              | some v_c =>
                  rw [hl, hp, hc] at h
                  have := ih (i + 1) _ (dst.set i _) out h
                  simpa using this

theorem unrollVec_length {w : Nat} {src r : List Nat}
    (h : unrollVec w src = some r) : r.length = src.length :=
  unrollLoop_length src.length 0 0 src r h

theorem addVec_length {a : List Nat} {b r : List Nat}
    (h : addVec a b = some r) : r.length = a.length := by
  unfold addVec at h
  by_cases hab : a.length = b.length
  · rw [if_pos hab] at h
    cases h
    simp [hab]
  · rw [if_neg hab] at h
    exact absurd h (by simp)

theorem satAddVecGo_length :
    ∀ {a : List Nat} {b : List Int} {r : List Nat},
      satAddVecGo a b = some r → r.length = a.length := by
  intro a
  induction a with
  | nil =>
      intro b r h
      cases b with
      | nil => cases h; rfl
      | cons x xs => exact absurd h (by simp [satAddVecGo])
  | cons x xs ih =>
      intro b r h
      cases b with
      | nil => exact absurd h (by simp [satAddVecGo])
      | cons y ys =>
          simp only [satAddVecGo] at h
          cases hs : saturating_add_u64_i64 x y with
          | none => rw [hs] at h; exact absurd h (by simp)
          | some v =>
              cases hr : satAddVecGo xs ys with
              | none => rw [hs, hr] at h; exact absurd h (by simp)
              | some rest =>
                  rw [hs, hr] at h
                  cases h
                  simp [ih hr]

theorem satAddVec_length {a : List Nat} {b : List Int} {r : List Nat}
    (h : satAddVec a b = some r) : r.length = a.length := by
  unfold satAddVec at h
  by_cases hab : a.length = b.length
  · rw [if_pos hab] at h
    exact satAddVecGo_length h
  · rw [if_neg hab] at h
    exact absurd h (by simp)

theorem cumsum_wf {s : TimeSeries K Nat} (hwf : s.Wf) : s.cumsum.Wf := by
  obtain ⟨hvec, hkey⟩ := hwf
  constructor
  · intro v hv
    simp only [TimeSeries.cumsum] at hv
    obtain ⟨a, ha, rfl⟩ := List.mem_map.mp hv
    rw [cumsumVec_length]
    exact hvec a ha
  · intro p hp
    simp only [TimeSeries.cumsum, List.length_map]
    exact hkey p hp

theorem diff_wf {s s' : TimeSeries K Nat} {w : Nat} (hwf : s.Wf)
    (h : s.diff w = some s') : s'.Wf := by
  unfold TimeSeries.diff at h
  cases hm : optMapVecs (diffVec w) s.time_series with
  | none => rw [hm] at h; exact absurd h (by simp)
  | some ts' =>
      rw [hm] at h
      simp only [Option.map_some'] at h
      cases h
      exact wf_of_optMapVecs hm
        (fun v hv v' hv' => by rw [diffVec_length hv']; exact hwf.1 v hv)
        hwf

theorem unrolled_wf {s s' : TimeSeries K Nat} {w : Nat} (hwf : s.Wf)
    (h : s.unrolled w = some s') : s'.Wf := by
  unfold TimeSeries.unrolled at h
  cases hm : optMapVecs (unrollVec w) s.time_series with
  | none => rw [hm] at h; exact absurd h (by simp)
  | some ts' =>
      rw [hm] at h
      simp only [Option.map_some'] at h
      cases h
      exact wf_of_optMapVecs hm
        (fun v hv v' hv' => by rw [unrollVec_length hv']; exact hwf.1 v hv)
        hwf

theorem shift_fwd_wf {s s' : TimeSeries K Nat} {w : Nat} (hwf : s.Wf)
    (h : s.shift_fwd w = some s') : s'.Wf := by
  unfold TimeSeries.shift_fwd at h
  by_cases hlw : s.len ≤ w
  · rw [if_pos hlw] at h
    have hwf0 : TimeSeries.Wf (TimeSeries.mk s.start s.keys
        (s.time_series.map (fun v => List.replicate v.length 0)) s.len) := by
      constructor
      · intro v hv
        obtain ⟨a, ha, rfl⟩ := List.mem_map.mp hv
        rw [List.length_replicate]
        exact hwf.1 a ha
      · intro p hp
        simp only [List.length_map]
        exact hwf.2 p hp
    cases hm : optMapVecs (shiftVec w)
        (s.time_series.map (fun v => List.replicate v.length 0)) with
    | none => rw [hm] at h; exact absurd h (by simp)
    | some ts' =>
        rw [hm] at h
        simp only [Option.map_some'] at h
        cases h
        exact @wf_of_optMapVecs K _ (TimeSeries.mk s.start s.keys
          (s.time_series.map (fun v => List.replicate v.length 0)) s.len)
          (shiftVec w) ts' hm
          (fun v hv v' hv' => by
            rw [shiftVec_length hv']
            exact hwf0.1 v hv)
          hwf0
  · rw [if_neg hlw] at h
    cases hm : optMapVecs (shiftVec w) s.time_series with
    | none => rw [hm] at h; exact absurd h (by simp)
    | some ts' =>
        rw [hm] at h
        simp only [Option.map_some'] at h
        cases h
        exact wf_of_optMapVecs hm
          (fun v hv v' hv' => by rw [shiftVec_length hv']; exact hwf.1 v hv)
          hwf

theorem synthesizeAcc_length {s : TimeSeries K Nat} :
    ∀ (kin : List K) (vtemp out : List Nat),
      synthesizeAcc s vtemp kin = some out → out.length = vtemp.length := by
  intro kin
  induction kin with
  | nil =>
      intro vtemp out h
      cases h
      rfl
  | cons k rest ih =>
      intro vtemp out h
      simp only [synthesizeAcc] at h
      cases hg : s.get k with
      | none =>
          rw [hg] at h
          exact ih vtemp out h
      | some tsin =>
          rw [hg] at h
          have h2 : (match addVec vtemp tsin with
              | some v => synthesizeAcc s v rest
              | none => none) = some out := h
          cases ha : addVec vtemp tsin with
          | none => rw [ha] at h2; exact absurd h2 (by simp)
          | some v =>
              rw [ha] at h2
              rw [ih v out h2, addVec_length ha]

theorem get_index_or_insert_wf {s s' : TimeSeries K Nat} {k : K}
    {vec : List Nat} {i : Nat} (hwf : s.Wf)
    (h : s.get_index_or_insert k vec = some (s', i)) : s'.Wf := by
  unfold TimeSeries.get_index_or_insert at h
  by_cases hv : vec.length = s.len
  · rw [if_pos hv] at h
    cases hl : s.lookupKey k with
    | some j =>
        rw [hl] at h
        cases h
        exact hwf
    | none =>
        rw [hl] at h
        cases h
        constructor
        · intro v hvm
          rcases List.mem_append.mp hvm with hmem | hmem
          · exact hwf.1 v hmem
          · simp only [List.mem_singleton] at hmem
            subst hmem
            exact hv
        · intro p hp
          rcases List.mem_append.mp hp with hmem | hmem
          · have := hwf.2 p hmem
            simp only [List.length_append, List.length_singleton]
            omega
          · simp only [List.mem_singleton] at hmem
            subst hmem
            simp only [List.length_append, List.length_singleton]
            omega
  · rw [if_neg hv] at h
    exact absurd h (by simp)

theorem synthesize_wf {s s' : TimeSeries K Nat} {kin : List K} {kout : K}
    (hwf : s.Wf) (h : s.synthesize kin kout = some s') : s'.Wf := by
  unfold TimeSeries.synthesize at h
  cases ha : synthesizeAcc s (List.replicate s.len 0) kin with
  | none => rw [ha] at h; exact absurd h (by simp)
  | some vtemp =>
      rw [ha] at h
      simp only [Option.bind_eq_bind, Option.some_bind] at h
      cases hi : s.get_index_or_insert kout vtemp with
      | none => rw [hi] at h; exact absurd h (by simp)
      | some p =>
          rw [hi] at h
          simp only [Option.some_bind] at h
          cases h
          exact get_index_or_insert_wf hwf (by rw [hi])

theorem rekeyedGo_wf {U : Type} [DecidableEq U] {f : K → Option U}
    {src : List (List Nat)} :
    ∀ (ks : List (K × Nat)) (acc : TimeSeries U Nat) (out : TimeSeries U Nat),
      acc.Wf → rekeyedGo f src acc ks = some out → out.Wf := by
  intro ks
  induction ks with
  | nil =>
      intro acc out hacc h
      cases h
      exact hacc
  | cons p rest ih =>
      intro acc out hacc h
      simp only [rekeyedGo] at h
      cases hf : f p.1 with
      | none =>
          rw [hf] at h
          exact ih acc out hacc h
      | some k_new =>
          rw [hf] at h
          obtain ⟨hwf', hlen', hidx, hvlen⟩ :=
            get_index_or_create_spec 0 k_new hacc
          have h2 : (match addVec
              ((acc.get_index_or_create 0 k_new).1.time_series.getD
                (acc.get_index_or_create 0 k_new).2 [])
              (src.getD p.2 []) with
            | some v => rekeyedGo f src
                { (acc.get_index_or_create 0 k_new).1 with
                  time_series :=
                    (acc.get_index_or_create 0 k_new).1.time_series.set
                      (acc.get_index_or_create 0 k_new).2 v } rest
            | none => none) = some out := h
          cases ha : addVec
              ((acc.get_index_or_create 0 k_new).1.time_series.getD
                (acc.get_index_or_create 0 k_new).2 [])
              (src.getD p.2 []) with
          | none => rw [ha] at h2; exact absurd h2 (by simp)
          | some v =>
              rw [ha] at h2
              have hv : v.length =
                  (acc.get_index_or_create 0 k_new).1.len := by
                rw [addVec_length ha, hvlen, hlen']
              exact ih _ out (wf_set_slot hwf' hv) h2

theorem rekeyed_wf {U : Type} [DecidableEq U] {s : TimeSeries K Nat}
    {f : K → Option U} {s' : TimeSeries U Nat}
    (h : s.rekeyed f = some s') : s'.Wf := by
  unfold TimeSeries.rekeyed at h
  exact rekeyedGo_wf s.keys _ s'
    ⟨fun v hv => absurd hv (by simp), fun p hp => absurd hp (by simp)⟩ h

theorem addGo_wf {other : TimeSeries K Nat} {L : Nat} :
    ∀ (ks : List (K × Nat)) (ts ts2 : List (List Nat)),
      (∀ v ∈ ts, v.length = L) → addGo other ts ks = some ts2 →
      (∀ v ∈ ts2, v.length = L) ∧ ts2.length = ts.length := by
  intro ks
  induction ks with
  | nil =>
      intro ts ts2 hts h
      cases h
      exact ⟨hts, rfl⟩
  | cons p rest ih =>
      intro ts ts2 hts h
      simp only [addGo] at h
      cases hg : other.get p.1 with
      | none =>
          rw [hg] at h
          exact ih ts ts2 hts h
      | some remote =>
          rw [hg] at h
          have h2 : (match addVec (ts.getD p.2 []) remote with
              | some v => addGo other (ts.set p.2 v) rest
              | none => none) = some ts2 := h
          cases ha : addVec (ts.getD p.2 []) remote with
          | none => rw [ha] at h2; exact absurd h2 (by simp)
          | some v =>
              rw [ha] at h2
              have hvl : v.length = (ts.getD p.2 []).length :=
                addVec_length ha
              have hset : ∀ u ∈ ts.set p.2 v, u.length = L := by
                by_cases hpl : p.2 < ts.length
                · intro u hu
                  rcases List.mem_or_eq_of_mem_set hu with hmem | rfl
                  · exact hts u hmem
                  · rw [hvl, List.getD_eq_getElem ts [] hpl]
                    exact hts ts[p.2] (List.getElem_mem hpl)
                · rw [List.set_eq_of_length_le (by omega)]
                  exact hts
              obtain ⟨ha1, ha2⟩ := ih (ts.set p.2 v) ts2 hset h2
              exact ⟨ha1, by rw [ha2]; simp⟩

theorem add_wf {s other s' : TimeSeries K Nat} (hwf : s.Wf)
    (h : s.add other = some s') : s'.Wf := by
  unfold TimeSeries.add at h
  cases hm : addGo other s.time_series s.keys with
  | none => rw [hm] at h; exact absurd h (by simp)
  | some ts2 =>
      rw [hm] at h
      simp only [Option.map_some'] at h
      cases h
      obtain ⟨h1, h2⟩ := addGo_wf s.keys s.time_series ts2 hwf.1 hm
      exact ⟨h1, fun p hp => by rw [h2]; exact hwf.2 p hp⟩

theorem checkedAddSignedGo_wf {di : TimeSeries K Int} :
    ∀ (ks : List (K × Nat)) (acc out : TimeSeries K Nat),
      acc.Wf → checkedAddSignedGo di acc ks = some out → out.Wf := by
  intro ks
  induction ks with
  | nil =>
      intro acc out hacc h
      cases h
      exact hacc
  | cons p rest ih =>
      intro acc out hacc h
      simp only [checkedAddSignedGo] at h
      obtain ⟨hwf', hlen', hidx, hvlen⟩ :=
        get_index_or_create_spec 0 p.1 hacc
      cases ha : satAddVec
          ((acc.get_index_or_create 0 p.1).1.time_series.getD
            (acc.get_index_or_create 0 p.1).2 [])
          (di.time_series.getD p.2 []) with
      | none => rw [ha] at h; exact absurd h (by simp)
      | some v =>
          rw [ha] at h
          have hv : v.length = (acc.get_index_or_create 0 p.1).1.len := by
            rw [satAddVec_length ha, hvlen, hlen']
          exact ih _ out (wf_set_slot hwf' hv) h

theorem checked_add_signed_wf {s s' : TimeSeries K Nat}
    {di : TimeSeries K Int} (hwf : s.Wf)
    (h : s.checked_add_signed di = some s') : s'.Wf :=
  checkedAddSignedGo_wf di.keys s s' hwf h

/-- I2: a key created by get_index_or_create owns the all-zero vector
of length len. -/
theorem get_index_or_create_zero {s : TimeSeries K Nat} {k : K}
    (hl : s.lookupKey k = none) :
    TimeSeries.get ((s.get_index_or_create 0 k).1) k =
      some (List.replicate s.len 0) := by
  unfold TimeSeries.get_index_or_create
  rw [hl]
  have hfind : s.keys.find? (fun p => decide (p.1 = k)) = none := by
    unfold TimeSeries.lookupKey at hl
    cases hf : s.keys.find? (fun p => decide (p.1 = k)) with
    | none => rfl
    | some p => rw [hf] at hl; exact absurd hl (by simp)
  unfold TimeSeries.get TimeSeries.lookupKey
  rw [List.find?_append, hfind]
  rw [List.find?_cons_of_pos _ (by simp)]
  simp only [Option.none_or, Option.map_some', Option.some_bind]
  rw [List.getElem?_append_right (le_refl s.time_series.length),
    Nat.sub_self]
  rfl

/-! ## Claim theorems -/

/-- C2, counterexample.  The claim says the diff artifact is written
back as an uncompressed plain file and that the loader rejects
compressed input.  In the code writeback wraps the output in a gzip
encoder — the artifact is NOT plain — and try_load_existing reads
through a gzip decoder, so compressed input is exactly what it
accepts. -/
theorem c2_counterexample :
    writeback_encoding ≠ StreamEncoding.plain ∧
    try_load_existing_reads StreamEncoding.gzip = true := by
  constructor
  · intro h
    simp [writeback_encoding] at h
  · rfl

/-- C2, amended: the publication-diff builder writes the diff artifact
back gzip-compressed (flate2::write::GzEncoder, level 5), and its
loader reads the existing artifact through a gzip decoder, so it
accepts compressed input and fails on a plain uncompressed file. -/
theorem c2_amended_holds :
    writeback_encoding = StreamEncoding.gzip ∧
    try_load_existing_reads StreamEncoding.gzip = true ∧
    try_load_existing_reads StreamEncoding.plain = false :=
  ⟨rfl, rfl, rfl⟩

/-- C3, counterexample.  unrolled(7) on the single-key store over
[0,0,0,0,0,0,7,7,7,7,7,7,7] does not return [0,0,0,0,0,0,1,1,1,1,1,1,1]
for that key: the recurrence d[i] = (s[i] - s[i-1]) + d[i-7] puts the
whole first-window mass on the first nonzero slot. -/
theorem c3_counterexample :
    ((TimeSeries.unrolled 7 s4store).bind (fun s => s.get 0)) ≠
      some [0,0,0,0,0,0,1,1,1,1,1,1,1] := by
  decide

/-- C3, amended: unrolled(7) on the slot vector
[0,0,0,0,0,0,7,7,7,7,7,7,7] returns [0,0,0,0,0,0,7,0,0,0,0,0,0] — every
trailing 7-window of the result still sums to the corresponding input
slot, but the daily values are a single spike, not a flat 1-per-day
profile. -/
theorem c3_amended_holds :
    ((TimeSeries.unrolled 7 s4store).bind (fun s => s.get 0)) =
      some [0,0,0,0,0,0,7,0,0,0,0,0,0] := by
  decide

/-- C7 (code bug).  The lib.rs Display implementation renders Female as
"F", which is not among {M, W, unbekannt} and does not deserialize (the
serde rename on the very same enum expects "W", as does the rki.rs
Display); Male and Unknown do round-trip. -/
theorem c7_female_breaks_roundtrip :
    Sex.display Sex.Female = "F" ∧
    Sex.deserialize "F" = none ∧
    Sex.deserialize (Sex.display Sex.Male) = some Sex.Male ∧
    Sex.deserialize (Sex.display Sex.Unknown) = some Sex.Unknown ∧
    Sex.displayRki Sex.Female = "W" ∧
    Sex.deserialize "W" = some Sex.Female := by
  refine ⟨rfl, ?_, ?_, ?_, rfl, ?_⟩ <;> decide

/-- C10 (code bug).  The rki.rs FromStr first strips the leading A and
then slices off one more leading character in the "+" branch, so
"A80+" parses with the first digit dropped: low = 0, and Display
renders it back as "A00+", not "A80+".  The lib.rs implementation of
the same parser keeps the digits and round-trips. -/
theorem c10_a80_breaks_roundtrip :
    AgeGroup.from_str_rki "A80+".toList = some { low := 0, high := none } ∧
    (AgeGroup.from_str_rki "A80+".toList).map AgeGroup.display =
      some "A00+" ∧
    "A00+" ≠ "A80+" ∧
    AgeGroup.from_str_lib "A80+".toList = some { low := 80, high := none } ∧
    AgeGroup.display { low := 80, high := none } = "A80+" := by
  refine ⟨?_, ?_, ?_, ?_, ?_⟩ <;> decide

/-- C1, counterexample.  In scenario S3 the first merge does put 5 at
the slot of 2020-01-02 (as the claim expects), but the retraction is
NOT subtracted at slot_pub - 1: after the second merge the slot of
2020-01-04 (day 3) holds 0, not the claimed 3 — the magnitude was
subtracted at the report-date slot 2020-01-02 instead (and the code has
no cases_retracted store at all). -/
theorem c1_counterexample :
    (s3d1.bind (fun d => d.cases_by_pub.get_value s3k 1)) = some 5 ∧
    (s3d2.bind (fun d => d.cases_by_pub.get_value s3k 3)) ≠ some 3 ∧
    (s3d2.bind (fun d => d.cases_by_pub.get_value s3k 3)) = some 0 ∧
    (s3d2.bind (fun d => d.cases_by_pub.get_value s3k 1)) = some 3 := by
  refine ⟨?_, ?_, ?_, ?_⟩ <;> decide

/-- C5, counterexample.  The publication-axis stores are updated with
checked (not saturating) arithmetic: a NewlyReported record whose
signed count is negative drives cases_by_pub below zero on an empty
store, and the merge aborts (checked_add_u64_i64 fails and apply_diff
panics) instead of storing zero. -/
theorem c5_counterexample :
    PartialDiffData.submit s3d0 1 negCountRec = none := by
  decide

/-- C1, amended (corrected claim).  For a Retracted case record (count
c < 0) with an in-range report date, the builder searches cases_by_pub
from the report-date slot forward (find_ge) for the first slot holding
at least the magnitude, subtracts the magnitude exactly there, and
drops the retraction (store unchanged) when no such slot exists — it
never targets slot_pub - 1 and maintains no cases_retracted store.  In
scenario S3 the subtraction lands on the report-date slot 2020-01-02
(leaving 3 there) while the slot of 2020-01-04 stays 0. -/
theorem c1_retraction_semantics :
    (∀ (ts : Counters PartialCaseKey) (k : PartialCaseKey) (ti : Nat)
        (rd : Int) (c : Int) (start_at : Nat),
      ts.date_index rd = some start_at → c < 0 →
      (ts.find_ge k start_at (-c).toNat = none →
        apply_diff k ti ts rd ReportFlag.Retracted c = some ts) ∧
      (∀ i, ts.find_ge k start_at (-c).toNat = some i →
        ∃ vi vec, ts.lookupKey k = some vi ∧
          ts.time_series[vi]? = some vec ∧
          (-c).toNat ≤ vec.getD i 0 ∧
          apply_diff k ti ts rd ReportFlag.Retracted c =
            some { ts with
                   time_series := ts.time_series.set vi
                     (vec.set i (vec.getD i 0 - (-c).toNat)) })) ∧
    ((s3d2.bind (fun d => d.cases_by_pub.get_value s3k 1)) = some 3 ∧
     (s3d2.bind (fun d => d.cases_by_pub.get_value s3k 3)) = some 0) :=
  ⟨fun _ _ _ _ _ _ hd hc => apply_diff_retracted hd hc,
   by decide, by decide⟩

/-- C1's general part applied to the concrete one-key store holding
[0,5,0,0,0,0,0]: the retraction of magnitude 2 with report date day 1
is subtracted at slot 1. -/
theorem c1_witness :
    ∃ vi vec, retrStore.lookupKey s3k = some vi ∧
      retrStore.time_series[vi]? = some vec ∧
      ((-(-2 : Int)).toNat ≤ vec.getD 1 0) ∧
      apply_diff s3k 4 retrStore 1 ReportFlag.Retracted (-2) =
        some { retrStore with
               time_series := retrStore.time_series.set vi
                 (vec.set 1 (vec.getD 1 0 - (-(-2 : Int)).toNat)) } :=
  (c1_retraction_semantics.1 retrStore s3k 4 1 (-2) 1 (by decide)
    (by decide)).2 1 (by decide)

/-- C5, amended (corrected claim).  Only the delay bookkeeping stores
are updated with saturating u64 ± i32 arithmetic (below-zero results
clamp to 0, never aborting); the three per-axis stores go through
checked_add_u64_i64, which returns none — aborting the merge — exactly
when a negative delta exceeds the stored value; retractions routed
through prepare_diff can never hit that abort, because find_ge only
returns a slot holding at least the magnitude. -/
theorem c5_saturating_vs_checked :
    (∀ (reg : Nat) (v : Int), v < 0 →
      saturating_add_u64_i32 reg v = some (reg - (-v).toNat)) ∧
    (∀ (reg : Nat) (v : Int), v < 0 → reg < (-v).toNat →
      saturating_add_u64_i32 reg v = some 0) ∧
    (∀ (a : Nat) (b : Int), b < 0 → a < (-b).toNat →
      checked_add_u64_i64 a b = none) ∧
    (∀ (ts : Counters PartialCaseKey) (k : PartialCaseKey) (ti : Nat)
        (rd : Int) (c : Int) (start_at : Nat),
      ts.date_index rd = some start_at → c < 0 →
      apply_diff k ti ts rd ReportFlag.Retracted c ≠ none) := by
  refine ⟨?_, ?_, ?_, ?_⟩
  · intro reg v hv
    rw [saturating_add_u64_i32, if_pos hv]
  · intro reg v hv hlt
    rw [saturating_add_u64_i32, if_pos hv, Nat.sub_eq_zero_of_le (le_of_lt hlt)]
  · intro a b hb hab
    rw [checked_add_u64_i64, if_pos hb, checked_sub, if_neg (by omega)]
  · intro ts k ti rd c start_at hd hc
    obtain ⟨hnone, hsome⟩ := @apply_diff_retracted ts k ti rd c start_at hd hc
    cases hfind : ts.find_ge k start_at (-c).toNat with
    | none => rw [hnone hfind]; exact Option.some_ne_none ts
    | some i =>
        obtain ⟨vi, vec, -, -, -, happ⟩ := hsome i hfind
        rw [happ]
        exact Option.some_ne_none _

/-- C5's saturating clause at reg = 1, v = -5 (clamps to zero), and its
no-abort clause on the concrete retraction store. -/
theorem c5_witness :
    saturating_add_u64_i32 1 (-5) = some 0 ∧
    apply_diff s3k 4 retrStore 1 ReportFlag.Retracted (-2) ≠ none :=
  ⟨c5_saturating_vs_checked.2.1 1 (-5) (by decide) (by decide),
   c5_saturating_vs_checked.2.2.2 retrStore s3k 4 1 (-2) 1 (by decide)
     (by decide)⟩

/-- C4 (code bug).  The shift law itself holds whenever the window fits
the series: shift_fwd(w) on a well-formed store succeeds and yields
s'[i] = s[i-w] for i ≥ w and 0 below w (for w = len every slot is
zero).  But the "w ≥ len zeroes everything and completes" half of the
claim fails for w > len: the zero-fill branch runs and then
rotate_right(w) still executes and panics, as the one-key length-3
store with w = 4 shows. -/
theorem c4_shift_law_and_panic :
    (∀ (K : Type) [DecidableEq K] (s : TimeSeries K Nat),
      s.VecWf → ∀ w, w ≤ s.len →
      ∃ s', TimeSeries.shift_fwd w s = some s' ∧ s'.len = s.len ∧
        ∀ k v, s.get k = some v →
          ∃ v', s'.get k = some v' ∧ v'.length = v.length ∧
            ∀ i, i < v.length →
              v'.getD i 0 = if i < w then 0 else v.getD (i - w) 0) ∧
    TimeSeries.shift_fwd 4 shift3store = none := by
  constructor
  · intro K instK s hwf w hw
    unfold TimeSeries.shift_fwd
    by_cases hlw : s.len ≤ w
    · -- w = len: the zero-fill branch runs first
      simp only [if_pos hlw]
      have hweq : w = s.len := le_antisymm hw hlw
      obtain ⟨l', hl'⟩ := @optMapVecs_isSome Nat Nat (shiftVec w)
        (s.time_series.map (fun v => List.replicate v.length 0))
        (by
          intro v0 hv0
          obtain ⟨a, ha, rfl⟩ := List.mem_map.mp hv0
          have h2 : w ≤ a.length := by
            rw [hwf a ha]
            exact hw
          have h3 : w ≤ (List.replicate a.length (0 : Nat)).length := by
            rw [List.length_replicate]
            exact h2
          simp [shiftVec, h2, h3])
      refine ⟨{ s with time_series := l' }, by rw [hl']; rfl, rfl, ?_⟩
      intro k v hget
      have hmem := TimeSeries.get_mem hget
      have hget0 : TimeSeries.get (TimeSeries.mk s.start s.keys
          (s.time_series.map (fun v => List.replicate v.length 0)) s.len) k =
          some (List.replicate v.length 0) := TimeSeries.get_map hget
      obtain ⟨v', hfv, hv'⟩ := TimeSeries.get_optMapVecs hl' hget0
      have hlen : w ≤ (List.replicate v.length (0 : Nat)).length := by
        rw [List.length_replicate, hwf v hmem]
        exact hw
      obtain ⟨v'', hfv', hlenv, hpt⟩ := shiftVec_spec hlen
      rw [hfv] at hfv'
      cases hfv'
      refine ⟨v', hv', by simpa using hlenv, ?_⟩
      intro i hi
      have hiw : i < w := by
        have := hwf v hmem
        omega
      have := hpt i (by simpa using hi)
      rw [this, if_pos hiw, if_pos hiw]
    · -- w < len: vectors are shifted directly
      simp only [if_neg hlw]
      obtain ⟨l', hl'⟩ := @optMapVecs_isSome Nat Nat (shiftVec w)
        s.time_series
        (by
          intro v0 hv0
          have : w ≤ v0.length := by rw [hwf v0 hv0]; exact hw
          simp [shiftVec, this])
      refine ⟨{ s with time_series := l' }, by rw [hl']; rfl, rfl, ?_⟩
      intro k v hget
      have hmem := TimeSeries.get_mem hget
      obtain ⟨v', hfv, hv'⟩ := TimeSeries.get_optMapVecs hl' hget
      have hlen : w ≤ v.length := by rw [hwf v hmem]; exact hw
      obtain ⟨v'', hfv', hlenv, hpt⟩ := shiftVec_spec hlen
      rw [hfv] at hfv'
      cases hfv'
      exact ⟨v', hv', hlenv, hpt⟩
  · decide

/-- C6 (confirmed).  On a well-formed store whose per-key totals fit in
u64, cumsum followed by diff(w) (w ≤ len) succeeds and leaves, for
every key, zeroes on the leading w slots and the trailing w-window sum
of the original series on every slot i ≥ w; for w = 1 this restores the
original series except slot 0, which becomes 0. -/
theorem c6_cumsum_diff_window :
    ∀ (K : Type) [DecidableEq K] (s : TimeSeries K Nat),
      s.VecWf → (∀ v ∈ s.time_series, v.sum < U64) → ∀ w, w ≤ s.len →
      ∃ s', TimeSeries.diff w (TimeSeries.cumsum s) = some s' ∧
        s'.len = s.len ∧
        ∀ k v, s.get k = some v →
          ∃ v', s'.get k = some v' ∧ v'.length = v.length ∧
            (∀ i, i < w → v'.getD i 0 = 0) ∧
            (∀ i, w ≤ i → i < v.length →
              v'.getD i 0 = ((v.drop (i + 1 - w)).take w).sum) ∧
            (w = 1 → v'.getD 0 0 = 0 ∧
              ∀ i, 1 ≤ i → i < v.length → v'.getD i 0 = v.getD i 0) := by
  intro K instK s hwf h64 w hw
  have hmono : ∀ v ∈ s.time_series, ∀ t,
      t + w < (cumsumVec v).length →
      (cumsumVec v).getD t 0 ≤ (cumsumVec v).getD (t + w) 0 := by
    intro v hv t htw
    rw [cumsumVec_length] at htw
    rw [cumsumVec_getD (h64 v hv) t (by omega),
      cumsumVec_getD (h64 v hv) (t + w) (by omega)]
    exact sum_take_mono v (by omega)
  have hsome : ∀ v0 ∈ (TimeSeries.cumsum s).time_series,
      (diffVec w v0).isSome := by
    intro v0 hv0
    simp only [TimeSeries.cumsum] at hv0
    obtain ⟨a, ha, rfl⟩ := List.mem_map.mp hv0
    have hwa : w ≤ (cumsumVec a).length := by
      rw [cumsumVec_length, hwf a ha]
      exact hw
    obtain ⟨r, hr, -⟩ := diffVec_spec hwa (hmono a ha)
    simp [hr]
  obtain ⟨l', hl'⟩ := optMapVecs_isSome hsome
  refine ⟨{ TimeSeries.cumsum s with time_series := l' }, ?_, rfl, ?_⟩
  · unfold TimeSeries.diff
    rw [hl']
    rfl
  · intro k v hget
    have hmem := TimeSeries.get_mem hget
    have hgetc : (TimeSeries.cumsum s).get k = some (cumsumVec v) :=
      TimeSeries.get_map hget
    obtain ⟨v', hfv, hv'⟩ := TimeSeries.get_optMapVecs hl' hgetc
    have hwa : w ≤ (cumsumVec v).length := by
      rw [cumsumVec_length, hwf v hmem]
      exact hw
    obtain ⟨r, hr, hrlen, hzero, hwin⟩ := diffVec_spec hwa (hmono v hmem)
    rw [hfv] at hr
    cases hr
    have hvlen : v'.length = v.length := by
      rw [hrlen, cumsumVec_length]
    have hwindow : ∀ i, w ≤ i → i < v.length →
        v'.getD i 0 = ((v.drop (i + 1 - w)).take w).sum := by
      intro i hwi hi
      have hi' : i < (cumsumVec v).length := by rw [cumsumVec_length]; exact hi
      rw [hwin i hwi hi', cumsumVec_getD (h64 v hmem) i hi,
        cumsumVec_getD (h64 v hmem) (i - w) (by omega)]
      have heq : i - w + 1 = i + 1 - w := by omega
      rw [heq]
      exact sum_take_sub_take hwi
    refine ⟨v', hv', hvlen, hzero, hwindow, ?_⟩
    intro hw1
    subst hw1
    refine ⟨hzero 0 Nat.one_pos, ?_⟩
    intro i h1i hi
    rw [hwindow i h1i hi]
    have heq : i + 1 - 1 = i := by omega
    rw [heq]
    exact sum_take_one_drop hi

/-- C6 applied to the concrete length-3 store with w = 1. -/
theorem c6_witness :
    ∃ s', TimeSeries.diff 1 (TimeSeries.cumsum shift3store) = some s' ∧
      s'.len = shift3store.len ∧
      ∀ k v, shift3store.get k = some v →
        ∃ v', s'.get k = some v' ∧ v'.length = v.length ∧
          (∀ i, i < 1 → v'.getD i 0 = 0) ∧
          (∀ i, 1 ≤ i → i < v.length →
            v'.getD i 0 = ((v.drop (i + 1 - 1)).take 1).sum) ∧
          (1 = 1 → v'.getD 0 0 = 0 ∧
            ∀ i, 1 ≤ i → i < v.length → v'.getD i 0 = v.getD i 0) :=
  c6_cumsum_diff_window Nat shift3store (by decide) (by decide) 1 (by decide)

/-- C8 (confirmed).  On a well-formed store, every one of
get_or_create, cumsum, diff, shift_fwd, synthesize, rekeyed, unrolled,
add and checked_add_signed (whenever it completes, i.e. returns some)
leaves every inserted key owning a vector of exactly len slots, and a
newly created key's vector is all zeroes of length len. -/
theorem c8_store_invariants :
    ∀ (K : Type) [DecidableEq K] (U : Type) [DecidableEq U]
      (s other : TimeSeries K Nat) (di : TimeSeries K Int)
      (k kout : K) (kin : List K) (w : Nat) (f : K → Option U),
      s.Wf →
      ((∀ k2 i, s.lookupKey k2 = some i →
        ∃ v, s.time_series[i]? = some v ∧ v.length = s.len) ∧
      (s.lookupKey k = none →
        TimeSeries.get ((s.get_index_or_create 0 k).1) k =
          some (List.replicate s.len 0)) ∧
      ((s.get_index_or_create 0 k).1).Wf ∧
      s.cumsum.Wf ∧
      (∀ s', s.diff w = some s' → s'.Wf) ∧
      (∀ s', s.shift_fwd w = some s' → s'.Wf) ∧
      (∀ s', s.synthesize kin kout = some s' → s'.Wf) ∧
      (∀ s', s.rekeyed f = some s' → s'.Wf) ∧
      (∀ s', s.unrolled w = some s' → s'.Wf) ∧
      (∀ s', s.add other = some s' → s'.Wf) ∧
      (∀ s', s.checked_add_signed di = some s' → s'.Wf)) := by
  intro K instK U instU s other di k kout kin w f hwf
  refine ⟨?_, ?_, ?_, ?_, ?_, ?_, ?_, ?_, ?_, ?_, ?_⟩
  · intro k2 i hi
    unfold TimeSeries.lookupKey at hi
    cases hf2 : s.keys.find? (fun p => decide (p.1 = k2)) with
    | none => rw [hf2] at hi; exact absurd hi (by simp)
    | some p =>
        rw [hf2] at hi
        have hp2 : p.2 = i := by simpa using hi
        have hklt : i < s.time_series.length :=
          hp2 ▸ hwf.2 p (List.mem_of_find?_eq_some hf2)
        exact ⟨s.time_series[i], List.getElem?_eq_getElem hklt,
          hwf.1 s.time_series[i] (List.getElem_mem hklt)⟩
  · intro hl
    exact get_index_or_create_zero hl
  · exact (get_index_or_create_spec 0 k hwf).1
  · exact cumsum_wf hwf
  · intro s' h
    exact diff_wf hwf h
  · intro s' h
    exact shift_fwd_wf hwf h
  · intro s' h
    exact synthesize_wf hwf h
  · intro s' h
    exact rekeyed_wf h
  · intro s' h
    exact unrolled_wf hwf h
  · intro s' h
    exact add_wf hwf h
  · intro s' h
    exact checked_add_signed_wf hwf h

/-- C8 applied to the concrete length-3 store (with an identity rekey
map, empty aggregation input and an empty signed store). -/
theorem c8_witness :
    shift3store.cumsum.Wf ∧
    (∀ s', TimeSeries.diff 1 shift3store = some s' → s'.Wf) ∧
    (∀ s', TimeSeries.shift_fwd 1 shift3store = some s' → s'.Wf) :=
  have h := c8_store_invariants Nat Nat shift3store shift3store intStore3
    0 0 [] 1 (fun k2 => some k2) (by decide)
  ⟨h.2.2.2.1, h.2.2.2.2.1, h.2.2.2.2.2.1⟩

/-- C9 (confirmed).  write_measurement backslash-escapes exactly
backslash, comma, space, tab, newline and carriage return (each single
character gets one preceding backslash, everything else is copied
unchanged), write_name escapes exactly that set plus the equals sign,
and the measurement-and-tagset fragment of measurement "a,b c" with tag
"k=v" = "x y" is the 18 characters of a backslash-comma b backslash-
space c comma k backslash-equals v equals x backslash-space y. -/
theorem c9_escaping :
    (∀ s : List Char,
      write_measurement s = s.flatMap (escapeCharSpec measurementPat)) ∧
    (∀ s : List Char, write_name s = s.flatMap (escapeCharSpec namePat)) ∧
    tagsetFragment "a,b c".toList [("k=v".toList, "x y".toList)] =
      "a\\,b\\ c,k\\=v=x\\ y".toList := by
  refine ⟨?_, ?_, ?_⟩
  · intro s
    exact write_escaped_flatMap measurementPat s
  · intro s
    exact write_escaped_flatMap namePat s
  · decide

/-- C4, the shift law applied to the concrete length-3 store with
window 1. -/
theorem c4_witness :
    ∃ s', TimeSeries.shift_fwd 1 shift3store = some s' ∧
      s'.len = shift3store.len ∧
      ∀ k v, shift3store.get k = some v →
        ∃ v', s'.get k = some v' ∧ v'.length = v.length ∧
          ∀ i, i < v.length →
            v'.getD i 0 = if i < 1 then 0 else v.getD (i - 1) 0 :=
  c4_shift_law_and_panic.1 Nat shift3store (by decide) 1 (by decide)

end Covid
